import Mathlib

/-!
The class `interval_map` of IntervalMap/IntervalMap.cpp

A shallow embedding of `interval_map<K,V>` and of the part of `std::map<K,V>` it is
built on, followed by theorems about `assign` and `operator[]`.

* `std::map<K,V>` is a list of key-value pairs; the container keeps its keys strictly
  ascending (`KeysAscending`), which the theorems take as the representation invariant
  of the container and which `assign` is shown to preserve.
* An iterator is the position of its node in key order; `map_end` (the size) is the
  past-the-end iterator.  Decrementing the first position, incrementing or
  dereferencing the past-the-end position are undefined behaviour in C++ and give
  `none` here.
* `K` is linearly ordered with a least element `⊥` (`std::numeric_limits<K>::min()`),
  `V` has decidable equality (`operator==`).
-/

namespace IntervalMap

variable {K V : Type} [LinearOrder K]

/-! ## std::map primitives (excerpt of the standard quoted at the end of the source) -/

/-- The iterator `m.begin()`: the first position. -/
def map_begin (_m : List (K × V)) : Nat := 0

/-- The iterator `m.end()`: the past-the-end position. -/
def map_end (m : List (K × V)) : Nat := m.length

/-- Dereferencing `*it` / `it->`: defined for the positions of elements only. -/
def deref (m : List (K × V)) (it : Nat) : Option (K × V) := m[it]?

/-- Stepping back `--it` / `std::prev(it)`: undefined on the first position. -/
def iter_prev (it : Nat) : Option Nat := if it = 0 then none else some (it - 1)

/-- Stepping forward `++it`: undefined on the past-the-end position. -/
def iter_next (m : List (K × V)) (it : Nat) : Option Nat :=
  if it < m.length then some (it + 1) else none

/-- The position `lower_bound(k)`: the first element with key not less than `k`,
or `end()` if such an element is not found. -/
def lower_bound : List (K × V) → K → Nat
  | [], _ => 0
  | p :: m, k => if p.1 < k then lower_bound m k + 1 else 0

/-- The position `upper_bound(k)`: the first element with key greater than `k`,
or `end()` if such an element is not found. -/
def upper_bound : List (K × V) → K → Nat
  | [], _ => 0
  | p :: m, k => if k < p.1 then 0 else upper_bound m k + 1

/-- The call `insert(t)`: inserts `t` if and only if there is no element with key
equivalent to the key of `t`.  Gives the new container, the position of the element
with key equivalent to the key of `t`, and whether the insertion took place. -/
def map_insert (m : List (K × V)) (t : K × V) : List (K × V) × Nat × Bool :=
  let i := lower_bound m t.1
  match m[i]? with
  | some p => if t.1 < p.1 then (m.take i ++ t :: m.drop i, i, true) else (m, i, false)
  | none => (m.take i ++ t :: m.drop i, i, true)

/-- The call `insert(p, t)`: same effect as `insert(t)`; the hint `p` only matters
for the running time.  Gives the new container, the position of the element with key
equivalent to the key of `t`, and whether the insertion took place. -/
def map_insert_hint (m : List (K × V)) (_p : Nat) (t : K × V) : List (K × V) × Nat × Bool :=
  map_insert m t

/-- An iterator obtained before an insertion still points to the same node afterwards
(23.2.4 §9): its position moves up by one when the new node was put at or before it. -/
def iter_after_insert (pos : Nat) (inserted : Bool) (it : Nat) : Nat :=
  if inserted ∧ pos ≤ it then it + 1 else it

/-- The call `erase(q1, q2)`: erases all the elements in the range `[q1, q2)`, which
has to be a valid range of the container. -/
def map_erase (m : List (K × V)) (q1 q2 : Nat) : Option (List (K × V)) :=
  if q1 ≤ q2 ∧ q2 ≤ m.length then some (m.take q1 ++ m.drop q2) else none

/-- After `erase(q1, q2)` the iterator `q2` stays valid: it is the position right
after the elements kept in front of the erased range. -/
def iter_after_erase (q1 _q2 : Nat) : Nat := q1

/-! ## interval_map -/

/-- The class `interval_map<K,V>` with its only data member `m_map`. -/
structure interval_map (K V : Type) where
  m_map : List (K × V)
deriving DecidableEq

/-- The constructor `interval_map(V const& val)`: inserts `(K_min, val)` into the
empty map. -/
def interval_map.ctor [OrderBot K] (val : V) : interval_map K V :=
  let m_map : List (K × V) := []
  ⟨(map_insert_hint m_map (map_begin m_map) (⊥, val)).1⟩

/-- Lines 88-107 of `assign`: find the first item with key not less than `keyEnd`
and, unless its key is `keyEnd`, insert `(keyEnd, value of the previous item)` right
before it.  Gives the map and `next_interval_it`. -/
def assign_upper (m_map : List (K × V)) (keyEnd : K) : Option (List (K × V) × Nat) := do
  let end_next_it := lower_bound m_map keyEnd
  let next_interval_it := end_next_it
  -- if(end_next_it == std::end(m_map) || keyEnd < end_next_it->first)
  let c ← if end_next_it = map_end m_map then some true
          else (deref m_map end_next_it).map (fun p => decide (keyEnd < p.1))
  if c then
    let end_previous_it ← iter_prev end_next_it
    let prev_item ← deref m_map end_previous_it
    let r := map_insert_hint m_map end_next_it (keyEnd, prev_item.2)
    some (r.1, r.2.1)
  else
    some (m_map, next_interval_it)

/-- Lines 109-140 of `assign`: insert `(keyBegin, val)` and choose the first position
to erase.  Gives the map, `erase_begin_it`, `re_insert_begin` and `next_interval_it`
(which still points to its node after the insertion). -/
def assign_lower [DecidableEq V] (m_map : List (K × V)) (next_interval_it : Nat) (keyBegin : K) (val : V) :
    Option (List (K × V) × Nat × Bool × Nat) := do
  let ins_begin_pair := map_insert m_map (keyBegin, val)
  let m_map := ins_begin_pair.1
  let next_interval_it :=
    iter_after_insert ins_begin_pair.2.1 ins_begin_pair.2.2 next_interval_it
  let begin_inserted := ins_begin_pair.2.2
  let erase_begin_it := ins_begin_pair.2.1
  if begin_inserted then
    -- if(erase_begin_it == std::begin(m_map) || std::prev(erase_begin_it)->second != val)
    let c ← if erase_begin_it = map_begin m_map then some true
            else do
              let q ← iter_prev erase_begin_it
              let prev_item ← deref m_map q
              some (decide (prev_item.2 ≠ val))
    if c then
      let erase_begin_it ← iter_next m_map erase_begin_it
      some (m_map, erase_begin_it, false, next_interval_it)
    else
      some (m_map, erase_begin_it, false, next_interval_it)
  else
    -- if(erase_begin_it != std::begin(m_map) && std::prev(erase_begin_it)->second == val)
    let c ← if erase_begin_it = map_begin m_map then some false
            else do
              let q ← iter_prev erase_begin_it
              let prev_item ← deref m_map q
              some (decide (prev_item.2 = val))
    if c then
      some (m_map, erase_begin_it, false, next_interval_it)
    else
      some (m_map, erase_begin_it, true, next_interval_it)

/-- Lines 142-160 of `assign`: choose the end of the range to erase, erase the range
and insert `(keyBegin, val)` again when `re_insert_begin` is set. -/
def assign_erase [DecidableEq V] (m_map : List (K × V)) (erase_begin_it : Nat) (re_insert_begin : Bool)
    (next_interval_it : Nat) (keyBegin : K) (val : V) : Option (List (K × V)) := do
  let erase_end_it := next_interval_it
  let next_item ← deref m_map erase_end_it
  let erase_end_it ← if next_item.2 = val then iter_next m_map erase_end_it
                     else some erase_end_it
  let m_map' ← map_erase m_map erase_begin_it erase_end_it
  let erase_end_it := iter_after_erase erase_begin_it erase_end_it
  if re_insert_begin then
    some (map_insert_hint m_map' erase_end_it (keyBegin, val)).1
  else
    some m_map'

/-- The member function `assign(keyBegin, keyEnd, val)`; `none` stands for undefined
behaviour of an iterator operation. -/
def interval_map.assign [DecidableEq V] (im : interval_map K V) (keyBegin keyEnd : K) (val : V) :
    Option (interval_map K V) :=
  if keyBegin < keyEnd then do
    let up ← assign_upper im.m_map keyEnd
    let lo ← assign_lower up.1 up.2 keyBegin val
    let m_map ← assign_erase lo.1 lo.2.1 lo.2.2.1 lo.2.2.2 keyBegin val
    some ⟨m_map⟩
  else
    some im

/-- The member function `operator[](key)`: `( --m_map.upper_bound(key) )->second`. -/
def interval_map.lookup (im : interval_map K V) (key : K) : Option V := do
  let it ← iter_prev (upper_bound im.m_map key)
  let item ← deref im.m_map it
  some item.2

/-- A finite sequence of `assign` calls `(keyBegin, keyEnd, val)`, in order. -/
def assign_seq [DecidableEq V] : interval_map K V → List (K × K × V) → Option (interval_map K V)
  | im, [] => some im
  | im, c :: cs => (im.assign c.1 c.2.1 c.2.2).bind (fun im' => assign_seq im' cs)

/-- The sample update of `IntervalMapTest` (lines 279-283) as a function on all keys:
a call overwrites the value at `k` when `!(k < min) && k < max`. -/
def naive_model (init : V) : List (K × K × V) → K → V
  | [], _ => init
  | c :: cs, k =>
    naive_model (if ¬ (k < c.1) ∧ k < c.2.1 then c.2.2 else init) cs k

/-- The value of the last call in the sequence whose range contains `k`
(`begin ≤ k < end`), or `init` if no call's range contains `k`. -/
def last_call_value (init : V) (calls : List (K × K × V)) (k : K) : V :=
  ((calls.reverse.find? (fun c => decide (c.1 ≤ k ∧ k < c.2.1))).map (fun c => c.2.2)).getD init

/-! ## Predicates on the boundary store -/

/-- Keys are stored in strictly ascending order (the `std::map` ordering). -/
def KeysAscending (m : List (K × V)) : Prop := m.Pairwise (fun a b => a.1 < b.1)

/-- The store contains a boundary whose key is the minimum key. -/
def HasMinBoundary [OrderBot K] (m : List (K × V)) : Prop := ∃ p ∈ m, p.1 = ⊥

/-- No two key-adjacent boundaries have equal values. -/
def Canonical (m : List (K × V)) : Prop := m.Chain' (fun a b => a.2 ≠ b.2)

instance (m : List (K × V)) : Decidable (KeysAscending m) := by
  unfold KeysAscending; infer_instance

instance [OrderBot K] (m : List (K × V)) : Decidable (HasMinBoundary m) := by
  unfold HasMinBoundary; infer_instance

/-- Canonicality is decided by comparing the values of neighbours from the front. -/
def decideCanonical [DecidableEq V] : (m : List (K × V)) → Decidable (Canonical m)
  | [] => isTrue List.chain'_nil
  | [a] => isTrue (List.chain'_singleton a)
  | a :: b :: t =>
    match decideCanonical (b :: t) with
    | isTrue h =>
      if hab : a.2 = b.2 then isFalse (fun hc => (List.chain'_cons.mp hc).1 hab)
      else isTrue (List.chain'_cons.mpr ⟨hab, h⟩)
    | isFalse h => isFalse (fun hc => h (List.chain'_cons.mp hc).2)

instance [DecidableEq V] (m : List (K × V)) : Decidable (Canonical m) := decideCanonical m

/-! ## The shape of the store before and after one call -/

/-- The boundary at `keyBegin` that `assign` leaves: none when the boundary right
before it carries `val`. -/
def optB [DecidableEq V] (A : List (K × V)) (b : K) (v : V) : List (K × V) :=
  if A.getLast?.map Prod.snd = some v then [] else [(b, v)]

/-- The boundary at `keyEnd` that `assign` leaves: none when its value is `val`. -/
def optE [DecidableEq V] (e : K) (x v : V) : List (K × V) :=
  if x = v then [] else [(e, x)]

/-- A store split at `keyBegin = b` and `keyEnd = e`: the boundaries before `b`, those
in `[b, e)`, the boundary at `e` if there is one, and the boundaries after `e`; `x` is
the value in force at `e`. -/
structure Split (m : List (K × V)) (b e : K) (A B E C : List (K × V)) (x : V) : Prop where
  eq : m = A ++ B ++ E ++ C
  hA : ∀ a ∈ A, a.1 < b
  hB : ∀ c ∈ B, ¬ c.1 < b ∧ c.1 < e
  hC : ∀ c ∈ C, e < c.1
  hE : E = [(e, x)] ∨ (E = [] ∧ (A ++ B).getLast?.map Prod.snd = some x)

/-! ## The instantiation `interval_map<int,char>` of `IntervalMapTest` -/

/-- The key type `int` of `IntervalMapTest`: the 32-bit two's complement integers,
with `std::numeric_limits<int>::min()` as least element. -/
abbrev int : Type := {x : Int // -2147483648 ≤ x ∧ x < 2147483648}

instance : OrderBot int where
  bot := ⟨-2147483648, by decide⟩
  bot_le := fun a => a.property.1

/-- The `int` with the given value (reduced to 32 bits). -/
def int.ofInt (x : Int) : int :=
  ⟨(x + 2147483648) % 4294967296 - 2147483648, by omega⟩

/-! ## The operations `assign` applies to values -/

/-- The comparison operators of the value type that the source text of `assign` calls:
`operator==` (lines 138 and 147) and `operator!=` (line 130). -/
structure value_ops (V : Type) where
  eq : V → V → Bool
  ne : V → V → Bool

/-- The operators of a value type whose `!=` is the negation of its `==`. -/
def value_ops.std (V : Type) [DecidableEq V] : value_ops V :=
  ⟨fun a b => decide (a = b), fun a b => !decide (a = b)⟩

/-- Lines 109-140 of `assign`, with the operators of the value type as parameters. -/
def assign_lower_ops (ops : value_ops V) (m_map : List (K × V)) (next_interval_it : Nat)
    (keyBegin : K) (val : V) : Option (List (K × V) × Nat × Bool × Nat) := do
  let ins_begin_pair := map_insert m_map (keyBegin, val)
  let m_map := ins_begin_pair.1
  let next_interval_it :=
    iter_after_insert ins_begin_pair.2.1 ins_begin_pair.2.2 next_interval_it
  let begin_inserted := ins_begin_pair.2.2
  let erase_begin_it := ins_begin_pair.2.1
  if begin_inserted then
    -- if(erase_begin_it == std::begin(m_map) || std::prev(erase_begin_it)->second != val)
    let c ← if erase_begin_it = map_begin m_map then some true
            else do
              let q ← iter_prev erase_begin_it
              let prev_item ← deref m_map q
              some (ops.ne prev_item.2 val)
    if c then
      let erase_begin_it ← iter_next m_map erase_begin_it
      some (m_map, erase_begin_it, false, next_interval_it)
    else
      some (m_map, erase_begin_it, false, next_interval_it)
  else
    -- if(erase_begin_it != std::begin(m_map) && std::prev(erase_begin_it)->second == val)
    let c ← if erase_begin_it = map_begin m_map then some false
            else do
              let q ← iter_prev erase_begin_it
              let prev_item ← deref m_map q
              some (ops.eq prev_item.2 val)
    if c then
      some (m_map, erase_begin_it, false, next_interval_it)
    else
      some (m_map, erase_begin_it, true, next_interval_it)

/-- Lines 142-160 of `assign`, with the operators of the value type as parameters. -/
def assign_erase_ops (ops : value_ops V) (m_map : List (K × V)) (erase_begin_it : Nat)
    (re_insert_begin : Bool) (next_interval_it : Nat) (keyBegin : K) (val : V) :
    Option (List (K × V)) := do
  let erase_end_it := next_interval_it
  let next_item ← deref m_map erase_end_it
  -- if(erase_end_it->second == val)
  let erase_end_it ← if ops.eq next_item.2 val then iter_next m_map erase_end_it
                     else some erase_end_it
  let m_map' ← map_erase m_map erase_begin_it erase_end_it
  let erase_end_it := iter_after_erase erase_begin_it erase_end_it
  if re_insert_begin then
    some (map_insert_hint m_map' erase_end_it (keyBegin, val)).1
  else
    some m_map'

/-- The member function `assign` with the operators of the value type as parameters. -/
def assign_ops (ops : value_ops V) (im : interval_map K V) (keyBegin keyEnd : K) (val : V) :
    Option (interval_map K V) :=
  if keyBegin < keyEnd then do
    let up ← assign_upper im.m_map keyEnd
    let lo ← assign_lower_ops ops up.1 up.2 keyBegin val
    let m_map ← assign_erase_ops ops lo.1 lo.2.1 lo.2.2.1 lo.2.2.2 keyBegin val
    some ⟨m_map⟩
  else
    some im

/-! ## The container calls `assign` makes -/

/-- A call of a `std::map` member function made by `assign`, with the container at the
moment of the call. -/
inductive map_call (K V : Type) where
  | lower_bound (m : List (K × V)) (k : K)
  | insert (m : List (K × V)) (t : K × V)
  | insert_hint (m : List (K × V)) (p : Nat) (t : K × V)
  | erase (m : List (K × V)) (q1 q2 : Nat)

/-- The calls that find a position in the map from scratch, without being given a
nearby position: `lower_bound(k)` and `insert(t)`. -/
def map_call.cold : map_call K V → Bool
  | map_call.lower_bound _ _ => true
  | map_call.insert _ _ => true
  | map_call.insert_hint _ _ _ => false
  | map_call.erase _ _ _ => false

/-- Lines 88-107 of `assign` together with the container calls made. -/
def assign_upper_log (m_map : List (K × V)) (keyEnd : K) :
    Option ((List (K × V) × Nat) × List (map_call K V)) := do
  let end_next_it := lower_bound m_map keyEnd
  let next_interval_it := end_next_it
  let c ← if end_next_it = map_end m_map then some true
          else (deref m_map end_next_it).map (fun p => decide (keyEnd < p.1))
  if c then
    let end_previous_it ← iter_prev end_next_it
    let prev_item ← deref m_map end_previous_it
    let r := map_insert_hint m_map end_next_it (keyEnd, prev_item.2)
    some ((r.1, r.2.1), [map_call.lower_bound m_map keyEnd,
      map_call.insert_hint m_map end_next_it (keyEnd, prev_item.2)])
  else
    some ((m_map, next_interval_it), [map_call.lower_bound m_map keyEnd])

/-- Lines 142-160 of `assign` together with the container calls made. -/
def assign_erase_log [DecidableEq V] (m_map : List (K × V)) (erase_begin_it : Nat)
    (re_insert_begin : Bool) (next_interval_it : Nat) (keyBegin : K) (val : V) :
    Option (List (K × V) × List (map_call K V)) := do
  let erase_end_it := next_interval_it
  let next_item ← deref m_map erase_end_it
  let erase_end_it ← if next_item.2 = val then iter_next m_map erase_end_it
                     else some erase_end_it
  let m_map' ← map_erase m_map erase_begin_it erase_end_it
  let erase_end_it' := iter_after_erase erase_begin_it erase_end_it
  if re_insert_begin then
    some ((map_insert_hint m_map' erase_end_it' (keyBegin, val)).1,
      [map_call.erase m_map erase_begin_it erase_end_it,
       map_call.insert_hint m_map' erase_end_it' (keyBegin, val)])
  else
    some (m_map', [map_call.erase m_map erase_begin_it erase_end_it])

/-- The member function `assign` together with the container calls made, in order; the
only call of lines 109-140 is the `insert(t)` of line 111. -/
def assign_log [DecidableEq V] (im : interval_map K V) (keyBegin keyEnd : K) (val : V) :
    Option (interval_map K V × List (map_call K V)) :=
  if keyBegin < keyEnd then do
    let up ← assign_upper_log im.m_map keyEnd
    let lo ← assign_lower up.1.1 up.1.2 keyBegin val
    let er ← assign_erase_log lo.1 lo.2.1 lo.2.2.1 lo.2.2.2 keyBegin val
    some (⟨er.1⟩, up.2 ++ [map_call.insert up.1.1 (keyBegin, val)] ++ er.2)
  else
    some (im, [])

/-! ## Positions in a store split by key -/

theorem lower_bound_append (A C : List (K × V)) (k : K) (hA : ∀ a ∈ A, a.1 < k) :
    lower_bound (A ++ C) k = A.length + lower_bound C k := by
  induction A with
  | nil => simp
  | cons a A ih =>
    have h1 : a.1 < k := hA a (List.mem_cons_self _ _)
    have h2 := ih (fun x hx => hA x (List.mem_cons_of_mem _ hx))
    simp [lower_bound, h1, h2]; omega

theorem lower_bound_head (C : List (K × V)) (k : K) (hC : ∀ c ∈ C.head?, ¬ c.1 < k) :
    lower_bound C k = 0 := by
  cases C with
  | nil => rfl
  | cons c C => simp [lower_bound, hC c (by simp)]

theorem lower_bound_split (A C : List (K × V)) (k : K) (hA : ∀ a ∈ A, a.1 < k)
    (hC : ∀ c ∈ C.head?, ¬ c.1 < k) : lower_bound (A ++ C) k = A.length := by
  rw [lower_bound_append A C k hA, lower_bound_head C k hC]; rfl

theorem getElem?_split {α : Type} (A C : List α) (c : α) : (A ++ c :: C)[A.length]? = some c := by
  rw [List.getElem?_append_right (le_refl _)]
  simp

theorem getElem?_split_last {α : Type} (P C : List α) (l : α) (hP : P.getLast? = some l) :
    (P ++ C)[P.length - 1]? = some l := by
  have hne : P ≠ [] := by
    intro h
    simp [h] at hP
  have hlen : P.length - 1 < P.length := Nat.sub_lt (List.length_pos.mpr hne) Nat.one_pos
  rw [List.getElem?_append_left hlen, ← List.getLast?_eq_getElem?, hP]

theorem length_ne_zero_of_getLast? {α : Type} (P : List α) (l : α) (hP : P.getLast? = some l) :
    P.length ≠ 0 := by
  intro h
  have : P = [] := List.length_eq_zero.mp h
  simp [this] at hP

theorem map_insert_absent (A C : List (K × V)) (t : K × V) (hA : ∀ a ∈ A, a.1 < t.1)
    (hC : ∀ c ∈ C.head?, t.1 < c.1) : map_insert (A ++ C) t = (A ++ t :: C, A.length, true) := by
  have hlb : lower_bound (A ++ C) t.1 = A.length :=
    lower_bound_split A C t.1 hA (fun c hc => not_lt.mpr (le_of_lt (hC c hc)))
  unfold map_insert
  cases C with
  | nil =>
    simp only [List.append_nil] at hlb ⊢
    simp [hlb]
  | cons c C =>
    have : t.1 < c.1 := hC c (by simp)
    simp only [hlb, getElem?_split, this, if_true, List.take_left, List.drop_left]

theorem map_insert_present (A C : List (K × V)) (k : K) (v w : V) (hA : ∀ a ∈ A, a.1 < k) :
    map_insert (A ++ (k, w) :: C) (k, v) = (A ++ (k, w) :: C, A.length, false) := by
  have hlb : lower_bound (A ++ (k, w) :: C) k = A.length :=
    lower_bound_split A _ k hA (by simp)
  unfold map_insert
  simp only [hlb, getElem?_split, lt_irrefl, if_false]

/-! ## The three stages of `assign` on a store split at `keyBegin` and `keyEnd` -/

theorem assign_upper_absent (P C : List (K × V)) (l : K × V) (e : K)
    (hl : P.getLast? = some l)
    (hP : ∀ a ∈ P, a.1 < e) (hC : ∀ c ∈ C.head?, e < c.1) :
    assign_upper (P ++ C) e = some (P ++ (e, l.2) :: C, P.length) := by
  have hlb : lower_bound (P ++ C) e = P.length :=
    lower_bound_split _ C e hP (fun c hc => not_lt.mpr (le_of_lt (hC c hc)))
  have hins : map_insert (P ++ C) (e, l.2) = (P ++ (e, l.2) :: C, P.length, true) :=
    map_insert_absent P C (e, l.2) hP hC
  have hp : deref (P ++ C) (P.length - 1) = some l := getElem?_split_last P C l hl
  have h0 : P.length ≠ 0 := length_ne_zero_of_getLast? P l hl
  unfold assign_upper
  simp only [hlb, map_insert_hint]
  cases C with
  | nil =>
    simp only [List.append_nil] at hp hins ⊢
    simp [map_end, iter_prev, h0, hp, hins]
  | cons c C =>
    have hc : e < c.1 := hC c (by simp)
    have hd : deref (P ++ c :: C) P.length = some c := getElem?_split P C c
    simp [map_end, hd, hc, iter_prev, hp, h0, hins]

theorem assign_upper_found (L C : List (K × V)) (e : K) (x : V) (hL : ∀ a ∈ L, a.1 < e) :
    assign_upper (L ++ (e, x) :: C) e = some (L ++ (e, x) :: C, L.length) := by
  have hlb : lower_bound (L ++ (e, x) :: C) e = L.length :=
    lower_bound_split L _ e hL (by simp)
  have hd : deref (L ++ (e, x) :: C) L.length = some (e, x) := getElem?_split L C (e, x)
  unfold assign_upper
  simp [hlb, map_end, hd]

theorem assign_lower_absent [DecidableEq V] (A R : List (K × V)) (n : Nat) (b : K) (v : V)
    (hA : ∀ a ∈ A, a.1 < b) (hR : ∀ c ∈ R.head?, b < c.1) (hn : A.length ≤ n) :
    assign_lower (A ++ R) n b v
      = some (A ++ (b, v) :: R, (A ++ optB A b v).length, false, n + 1) := by
  have hins : map_insert (A ++ R) (b, v) = (A ++ (b, v) :: R, A.length, true) :=
    map_insert_absent A R (b, v) hA hR
  unfold assign_lower
  simp only [hins, iter_after_insert, hn, map_begin]
  rcases List.eq_nil_or_concat A with hnil | ⟨L, a, hLa⟩
  · subst hnil
    simp [iter_next, optB]
  · have hlast : A.getLast? = some a := by rw [hLa]; simp
    have h0 : A.length ≠ 0 := length_ne_zero_of_getLast? A a hlast
    have hp : deref (A ++ (b, v) :: R) (A.length - 1) = some a :=
      getElem?_split_last A _ a hlast
    by_cases hav : a.2 = v
    · simp [h0, iter_prev, hp, hav, optB, hlast]
    · simp [h0, iter_prev, hp, hav, optB, hlast, iter_next]

theorem assign_lower_present [DecidableEq V] (A R : List (K × V)) (n : Nat) (b : K) (v w : V)
    (hA : ∀ a ∈ A, a.1 < b) :
    assign_lower (A ++ (b, w) :: R) n b v
      = some (A ++ (b, w) :: R, A.length, decide (optB A b v ≠ []), n) := by
  have hins : map_insert (A ++ (b, w) :: R) (b, v) = (A ++ (b, w) :: R, A.length, false) :=
    map_insert_present A R b v w hA
  unfold assign_lower
  simp only [hins, iter_after_insert, map_begin]
  rcases List.eq_nil_or_concat A with hnil | ⟨L, a, hLa⟩
  · subst hnil
    simp [optB]
  · have hlast : A.getLast? = some a := by rw [hLa]; simp
    have h0 : A.length ≠ 0 := length_ne_zero_of_getLast? A a hlast
    have hp : deref (A ++ (b, w) :: R) (A.length - 1) = some a :=
      getElem?_split_last A _ a hlast
    by_cases hav : a.2 = v
    · simp [h0, iter_prev, hp, hav, optB, hlast]
    · simp [h0, iter_prev, hp, hav, optB, hlast]

theorem map_erase_split {α : Type} (X Y Z : List α) :
    (X ++ Y ++ Z).take X.length ++ (X ++ Y ++ Z).drop (X ++ Y).length = X ++ Z := by
  rw [List.drop_left, List.append_assoc, List.take_left]

theorem map_erase_split_succ {α : Type} (X Y Z : List α) (z : α) :
    (X ++ Y ++ z :: Z).take X.length ++ (X ++ Y ++ z :: Z).drop ((X ++ Y).length + 1)
      = X ++ Z := by
  have h1 := map_erase_split X (Y ++ [z]) Z
  have h2 : (X ++ (Y ++ [z])).length = (X ++ Y).length + 1 := by
    simp only [List.length_append, List.length_singleton]; omega
  have h3 : X ++ (Y ++ [z]) ++ Z = X ++ Y ++ z :: Z := by simp
  rw [h2, h3] at h1
  exact h1

theorem assign_erase_split [DecidableEq V] (X Y C : List (K × V)) (e b : K) (x v : V)
    (r : Bool) :
    assign_erase (X ++ Y ++ (e, x) :: C) X.length r (X ++ Y).length b v
      = some (if r then (map_insert (X ++ (optE e x v ++ C)) (b, v)).1
              else X ++ (optE e x v ++ C)) := by
  have hd : deref (X ++ Y ++ (e, x) :: C) (X ++ Y).length = some (e, x) :=
    getElem?_split (X ++ Y) C (e, x)
  have hle : X.length ≤ (X ++ Y).length := by simp
  unfold assign_erase
  simp only [hd, Option.bind_eq_bind, Option.some_bind, iter_after_erase, map_insert_hint]
  by_cases hxv : x = v
  · subst hxv
    have hlt : (X ++ Y).length < (X ++ Y ++ (e, x) :: C).length := by simp
    have hr : X.length ≤ (X ++ Y).length + 1 ∧
        (X ++ Y).length + 1 ≤ (X ++ Y ++ (e, x) :: C).length :=
      ⟨Nat.le_succ_of_le hle, hlt⟩
    simp only [if_true, iter_next, if_pos hlt, Option.some_bind, map_erase, if_pos hr,
      map_erase_split_succ, optE, List.nil_append]
    cases r <;> simp
  · have hr : X.length ≤ (X ++ Y).length ∧
        (X ++ Y).length ≤ (X ++ Y ++ (e, x) :: C).length := ⟨hle, by simp⟩
    simp only [if_neg hxv, Option.some_bind, map_erase, if_pos hr, map_erase_split, optE,
      List.singleton_append]
    cases r <;> simp

theorem assign_tail [DecidableEq V] (A B C : List (K × V)) (b e : K) (x v : V) (hbe : b < e)
    (hA : ∀ a ∈ A, a.1 < b) (hB : ∀ c ∈ B.head?, ¬ c.1 < b) (hC : ∀ c ∈ C.head?, b < c.1) :
    ((assign_lower (A ++ B ++ (e, x) :: C) (A ++ B).length b v).bind
        fun lo => assign_erase lo.1 lo.2.1 lo.2.2.1 lo.2.2.2 b v)
      = some (A ++ optB A b v ++ optE e x v ++ C) := by
  have hins : (map_insert (A ++ (optE e x v ++ C)) (b, v)).1 = A ++ (b, v) :: (optE e x v ++ C) := by
    rw [map_insert_absent A _ (b, v) hA]
    intro c hc
    unfold optE at hc
    split at hc
    · exact hC c (by simpa using hc)
    · have : c = (e, x) := by simpa using hc.symm
      rw [this]; exact hbe
  have hcases : (∀ c ∈ (B ++ (e, x) :: C).head?, b < c.1) ∨ ∃ w B', B = (b, w) :: B' := by
    cases B with
    | nil =>
      left; intro c hc
      have : c = (e, x) := by simpa using hc.symm
      rw [this]; exact hbe
    | cons c B' =>
      have h1 : ¬ c.1 < b := hB c (by simp)
      rcases lt_or_eq_of_le (not_lt.mp h1) with h | h
      · left; intro c' hc'
        have : c' = c := by simpa using hc'.symm
        rw [this]; exact h
      · right; exact ⟨c.2, B', by rw [h]⟩
  rcases hcases with hR | ⟨w, B', hBw⟩
  · have hlow := assign_lower_absent A (B ++ (e, x) :: C) (A ++ B).length b v hA hR (by simp)
    rw [List.append_assoc, hlow, Option.some_bind]
    simp only
    by_cases hk : A.getLast?.map Prod.snd = some v
    · have hO : optB A b v = [] := by simp [optB, hk]
      have hm : A ++ (b, v) :: (B ++ (e, x) :: C) = A ++ ((b, v) :: B) ++ (e, x) :: C := by simp
      have hn : (A ++ B).length + 1 = (A ++ ((b, v) :: B)).length := by
        simp only [List.length_append, List.length_cons]; omega
      rw [hO, List.append_nil, hm, hn, assign_erase_split]
      simp
    · have hO : optB A b v = [(b, v)] := by simp [optB, hk]
      have hm : A ++ (b, v) :: (B ++ (e, x) :: C) = (A ++ [(b, v)]) ++ B ++ (e, x) :: C := by simp
      have hn : (A ++ B).length + 1 = ((A ++ [(b, v)]) ++ B).length := by
        simp only [List.length_append, List.length_singleton]; omega
      rw [hO, hm, hn, assign_erase_split]
      simp
  · subst hBw
    have hm : A ++ (b, w) :: B' ++ (e, x) :: C = A ++ (b, w) :: (B' ++ (e, x) :: C) := by simp
    have hlow := assign_lower_present A (B' ++ (e, x) :: C) (A ++ (b, w) :: B').length b v w hA
    rw [← hm] at hlow
    rw [hlow, Option.some_bind]
    simp only
    have := assign_erase_split A ((b, w) :: B') C e b x v (decide (optB A b v ≠ []))
    rw [this]
    by_cases hk : A.getLast?.map Prod.snd = some v
    · have hO : optB A b v = [] := by simp [optB, hk]
      simp [hO]
    · have hO : optB A b v = [(b, v)] := by simp [optB, hk]
      simp [hO, hins]

theorem assign_split [DecidableEq V] (m A B E C : List (K × V)) (b e : K) (x v : V)
    (hbe : b < e) (h : Split m b e A B E C x) :
    interval_map.assign ⟨m⟩ b e v = some ⟨A ++ optB A b v ++ optE e x v ++ C⟩ := by
  have hAB : ∀ a ∈ A ++ B, a.1 < e := by
    intro a ha
    rcases List.mem_append.mp ha with h1 | h1
    · exact lt_trans (h.hA a h1) hbe
    · exact (h.hB a h1).2
  have hBh : ∀ c ∈ B.head?, ¬ c.1 < b := fun c hc => (h.hB c (List.mem_of_mem_head? hc)).1
  have hCh : ∀ c ∈ C.head?, e < c.1 := fun c hc => h.hC c (List.mem_of_mem_head? hc)
  have hCb : ∀ c ∈ C.head?, b < c.1 := fun c hc => lt_trans hbe (hCh c hc)
  have hup : assign_upper m e = some (A ++ B ++ (e, x) :: C, (A ++ B).length) := by
    rcases h.hE with hE | ⟨hE, hl⟩
    · rw [h.eq, hE, List.append_assoc (A ++ B)]
      exact assign_upper_found (A ++ B) C e x hAB
    · obtain ⟨l, hl1, hl2⟩ := Option.map_eq_some'.mp hl
      rw [h.eq, hE, List.append_nil, ← hl2]
      exact assign_upper_absent (A ++ B) C l e hl1 hAB hCh
  have htail := assign_tail A B C b e x v hbe h.hA hBh hCb
  unfold interval_map.assign
  rw [if_pos hbe]
  simp only [hup, Option.bind_eq_bind, Option.some_bind]
  rw [Option.bind_eq_some] at htail
  obtain ⟨lo, hlo, her⟩ := htail
  rw [hlo, Option.some_bind, her, Option.some_bind]

theorem sorted_split (m : List (K × V)) (k : K) (hs : KeysAscending m) :
    ∃ L R, m = L ++ R ∧ (∀ a ∈ L, a.1 < k) ∧ (∀ c ∈ R, ¬ c.1 < k) := by
  induction m with
  | nil => exact ⟨[], [], rfl, by simp, by simp⟩
  | cons p t ih =>
    have hs' := List.pairwise_cons.mp hs
    by_cases hp : p.1 < k
    · obtain ⟨L, R, hm, hL, hR⟩ := ih hs'.2
      refine ⟨p :: L, R, by rw [hm]; rfl, ?_, hR⟩
      intro a ha
      rcases List.mem_cons.mp ha with h | h
      · rw [h]; exact hp
      · exact hL a h
    · refine ⟨[], p :: t, rfl, by simp, ?_⟩
      intro c hc
      rcases List.mem_cons.mp hc with h | h
      · rw [h]; exact hp
      · exact fun hck => hp (lt_trans (hs'.1 c h) hck)

theorem exists_split [OrderBot K] (m : List (K × V)) (b e : K) (hs : KeysAscending m)
    (hmin : HasMinBoundary m) (hbe : b < e) :
    ∃ A B E C x, Split m b e A B E C x := by
  obtain ⟨L, R, hm, hL, hR⟩ := sorted_split m e hs
  have hsL : KeysAscending L := by
    have : KeysAscending (L ++ R) := hm ▸ hs
    exact (List.pairwise_append.mp this).1
  have hsR : KeysAscending R := by
    have : KeysAscending (L ++ R) := hm ▸ hs
    exact (List.pairwise_append.mp this).2.1
  obtain ⟨A, B, hLm, hA, hB⟩ := sorted_split L b hsL
  have hB' : ∀ c ∈ B, ¬ c.1 < b ∧ c.1 < e := fun c hc =>
    ⟨hB c hc, hL c (hLm ▸ List.mem_append_right A hc)⟩
  have hLne : ∃ l, L.getLast? = some l := by
    obtain ⟨p, hp, hp0⟩ := hmin
    have hpe : p.1 < e := by rw [hp0]; exact lt_of_le_of_lt bot_le hbe
    have hpL : p ∈ L := by
      rw [hm] at hp
      rcases List.mem_append.mp hp with h | h
      · exact h
      · exact absurd hpe (hR p h)
    have hne : L ≠ [] := List.ne_nil_of_mem hpL
    exact ⟨L.getLast hne, List.getLast?_eq_getLast L hne⟩
  obtain ⟨l, hl⟩ := hLne
  cases R with
  | nil =>
    refine ⟨A, B, [], [], l.2, ⟨by simp [hm, hLm], hA, hB', by simp, Or.inr ⟨rfl, ?_⟩⟩⟩
    rw [← hLm, hl]; rfl
  | cons c R' =>
    have hc : ¬ c.1 < e := hR c (List.mem_cons_self _ _)
    have hR' := List.pairwise_cons.mp hsR
    by_cases hce : e < c.1
    · refine ⟨A, B, [], c :: R', l.2, ⟨by simp [hm, hLm], hA, hB', ?_, Or.inr ⟨rfl, ?_⟩⟩⟩
      · intro d hd
        rcases List.mem_cons.mp hd with h | h
        · rw [h]; exact hce
        · exact lt_trans hce (hR'.1 d h)
      · rw [← hLm, hl]; rfl
    · have hceq : c.1 = e := le_antisymm (not_lt.mp hce) (not_lt.mp hc)
      refine ⟨A, B, [(e, c.2)], R', c.2, ⟨?_, hA, hB', ?_, Or.inl rfl⟩⟩
      · rw [hm, hLm, ← hceq]; simp
      · intro d hd
        rw [← hceq]; exact hR'.1 d hd

/-! ## `operator[]` by recursion on the store -/

theorem upper_bound_le (m : List (K × V)) (k : K) : upper_bound m k ≤ m.length := by
  induction m with
  | nil => exact le_refl _
  | cons p t ih =>
    unfold upper_bound
    split
    · exact Nat.zero_le _
    · exact Nat.succ_le_succ ih

theorem lookup_nil (k : K) : interval_map.lookup (⟨[]⟩ : interval_map K V) k = none := rfl

theorem lookup_cons (p : K × V) (t : List (K × V)) (k : K) :
    interval_map.lookup ⟨p :: t⟩ k
      = if k < p.1 then none else some ((interval_map.lookup ⟨t⟩ k).getD p.2) := by
  by_cases h : k < p.1
  · simp [interval_map.lookup, upper_bound, h, iter_prev]
  · have hle := upper_bound_le t k
    simp only [interval_map.lookup, upper_bound, h, if_false, iter_prev, Nat.add_sub_cancel,
      Nat.succ_ne_zero, Option.bind_eq_bind, Option.some_bind, deref]
    cases hu : upper_bound t k with
    | zero => simp
    | succ n =>
      rw [hu] at hle
      have hn : n < t.length := hle
      simp [List.getElem?_eq_getElem hn]

theorem lookup_append_of_lt (L R : List (K × V)) (k : K) (hR : ∀ c ∈ R.head?, k < c.1) :
    interval_map.lookup ⟨L ++ R⟩ k = interval_map.lookup ⟨L⟩ k := by
  induction L with
  | nil =>
    cases R with
    | nil => rfl
    | cons c R => rw [List.nil_append, lookup_cons, if_pos (hR c (by simp))]; rfl
  | cons p L ih => rw [List.cons_append, lookup_cons, lookup_cons, ih]

theorem lookup_append_of_ge (L R : List (K × V)) (k : K) (hL : ∀ a ∈ L, ¬ k < a.1) :
    interval_map.lookup ⟨L ++ R⟩ k
      = (interval_map.lookup ⟨R⟩ k).or (L.getLast?.map Prod.snd) := by
  induction L with
  | nil => simp [Option.or_none]
  | cons p L ih =>
    have hp : ¬ k < p.1 := hL p (List.mem_cons_self _ _)
    have ih' := ih (fun a ha => hL a (List.mem_cons_of_mem _ ha))
    rw [List.cons_append, lookup_cons, if_neg hp, ih', List.getLast?_cons]
    cases interval_map.lookup ⟨R⟩ k with
    | some u => simp
    | none => cases L.getLast? <;> simp

theorem lookup_eq_getLast (L R : List (K × V)) (k : K) (hL : ∀ a ∈ L, ¬ k < a.1)
    (hR : ∀ c ∈ R.head?, k < c.1) :
    interval_map.lookup ⟨L ++ R⟩ k = L.getLast?.map Prod.snd := by
  rw [lookup_append_of_lt L R k hR]
  have := lookup_append_of_ge L [] k hL
  rw [List.append_nil, lookup_nil, Option.none_or] at this
  exact this

/-! ## Values in force in the store that `assign` leaves -/

theorem lastVal_optB {K V : Type} [DecidableEq V] (A : List (K × V)) (b : K) (v : V) :
    (A ++ optB A b v).getLast?.map Prod.snd = some v := by
  unfold optB
  split
  · rename_i h; rw [List.append_nil]; exact h
  · simp

theorem lastVal_optE {K V : Type} [DecidableEq V] (A : List (K × V)) (b e : K) (x v : V) :
    (A ++ optB A b v ++ optE e x v).getLast?.map Prod.snd = some x := by
  unfold optE
  split
  · rename_i h; rw [List.append_nil, h]; exact lastVal_optB A b v
  · simp

theorem Split.lastVal {m A B E C : List (K × V)} {b e : K} {x : V}
    (h : Split m b e A B E C x) : (A ++ B ++ E).getLast?.map Prod.snd = some x := by
  rcases h.hE with hE | ⟨hE, hl⟩
  · rw [hE]; simp
  · rw [hE, List.append_nil]; exact hl

theorem optB_key {K V : Type} [DecidableEq V] (A : List (K × V)) (b : K) (v : V) :
    ∀ c ∈ optB A b v, c = (b, v) := by
  intro c hc
  unfold optB at hc
  split at hc
  · simp at hc
  · simpa using hc

theorem optE_key {K V : Type} [DecidableEq V] (e : K) (x v : V) :
    ∀ c ∈ optE e x v, c = (e, x) ∧ x ≠ v := by
  intro c hc
  unfold optE at hc
  split at hc
  · simp at hc
  · rename_i h; exact ⟨by simpa using hc, h⟩

theorem mem_of_head?_append {α : Type} (X Y : List α) (c : α) (hc : c ∈ (X ++ Y).head?) :
    c ∈ X ∨ c ∈ Y.head? := by
  cases X with
  | nil => right; simpa using hc
  | cons a X =>
    left
    have : c = a := by simpa using hc.symm
    rw [this]; exact List.mem_cons_self _ _

theorem lookup_result_inside [DecidableEq V] (A C : List (K × V)) (b e k : K) (x v : V)
    (hA : ∀ a ∈ A, a.1 < b) (hC : ∀ c ∈ C, e < c.1) (hbk : b ≤ k) (hke : k < e) :
    interval_map.lookup ⟨A ++ optB A b v ++ optE e x v ++ C⟩ k = some v := by
  rw [List.append_assoc, lookup_eq_getLast (A ++ optB A b v) (optE e x v ++ C) k, lastVal_optB]
  · intro a ha
    rcases List.mem_append.mp ha with h | h
    · exact not_lt.mpr (le_of_lt (lt_of_lt_of_le (hA a h) hbk))
    · rw [optB_key A b v a h]; exact not_lt.mpr hbk
  · intro c hc
    rcases mem_of_head?_append _ _ c hc with h | h
    · rw [(optE_key e x v c h).1]; exact hke
    · exact lt_trans hke (hC c (List.mem_of_mem_head? h))

theorem lookup_result_low [DecidableEq V] (A C : List (K × V)) (b e k : K) (x v : V)
    (hbe : b < e) (hC : ∀ c ∈ C, e < c.1) (hkb : k < b) :
    interval_map.lookup ⟨A ++ optB A b v ++ optE e x v ++ C⟩ k = interval_map.lookup ⟨A⟩ k := by
  rw [List.append_assoc, List.append_assoc]
  apply lookup_append_of_lt
  intro c hc
  rcases mem_of_head?_append _ _ c hc with h | h
  · rw [optB_key A b v c h]; exact hkb
  · rcases mem_of_head?_append _ _ c h with h | h
    · rw [(optE_key e x v c h).1]; exact lt_trans hkb hbe
    · exact lt_trans (lt_trans hkb hbe) (hC c (List.mem_of_mem_head? h))

theorem Split.lookup_low {m A B E C : List (K × V)} {b e : K} {x : V}
    (h : Split m b e A B E C x) (hbe : b < e) (k : K) (hkb : k < b) :
    interval_map.lookup ⟨m⟩ k = interval_map.lookup ⟨A⟩ k := by
  rw [h.eq, List.append_assoc, List.append_assoc]
  apply lookup_append_of_lt
  intro c hc
  have hke : k < e := lt_trans hkb hbe
  rcases mem_of_head?_append _ _ c hc with h1 | h1
  · exact lt_of_lt_of_le hkb (not_lt.mp (h.hB c h1).1)
  · rcases mem_of_head?_append _ _ c h1 with h2 | h2
    · rcases h.hE with hE | ⟨hE, _⟩
      · rw [hE] at h2; have : c = (e, x) := by simpa using h2
        rw [this]; exact hke
      · rw [hE] at h2; simp at h2
    · exact lt_trans hke (h.hC c (List.mem_of_mem_head? h2))

theorem lookup_result_high [DecidableEq V] (A C : List (K × V)) (b e k : K) (x v : V)
    (hbe : b < e) (hA : ∀ a ∈ A, a.1 < b) (hek : e ≤ k) :
    interval_map.lookup ⟨A ++ optB A b v ++ optE e x v ++ C⟩ k
      = (interval_map.lookup ⟨C⟩ k).or (some x) := by
  rw [lookup_append_of_ge (A ++ optB A b v ++ optE e x v) C k, lastVal_optE]
  have hbk : b ≤ k := le_trans (le_of_lt hbe) hek
  intro a ha
  rcases List.mem_append.mp ha with h | h
  · rcases List.mem_append.mp h with h | h
    · exact not_lt.mpr (le_of_lt (lt_of_lt_of_le (hA a h) hbk))
    · rw [optB_key A b v a h]; exact not_lt.mpr hbk
  · rw [(optE_key e x v a h).1]; exact not_lt.mpr hek

theorem Split.lookup_high {m A B E C : List (K × V)} {b e : K} {x : V}
    (h : Split m b e A B E C x) (hbe : b < e) (k : K) (hek : e ≤ k) :
    interval_map.lookup ⟨m⟩ k = (interval_map.lookup ⟨C⟩ k).or (some x) := by
  rw [h.eq, lookup_append_of_ge (A ++ B ++ E) C k, h.lastVal]
  intro a ha
  rcases List.mem_append.mp ha with h1 | h1
  · rcases List.mem_append.mp h1 with h2 | h2
    · exact not_lt.mpr (le_of_lt (lt_of_lt_of_le (lt_trans (h.hA a h2) hbe) hek))
    · exact not_lt.mpr (le_of_lt (lt_of_lt_of_le (h.hB a h2).2 hek))
  · rcases h.hE with hE | ⟨hE, _⟩
    · rw [hE] at h1; have : a = (e, x) := by simpa using h1
      rw [this]; exact not_lt.mpr hek
    · rw [hE] at h1; simp at h1

/-! ## The invariants of the store that `assign` leaves -/

theorem result_sorted [DecidableEq V] {m A B E C : List (K × V)} {b e : K} {x : V} (v : V)
    (h : Split m b e A B E C x) (hbe : b < e) (hs : KeysAscending m) :
    KeysAscending (A ++ optB A b v ++ optE e x v ++ C) := by
  have hm : KeysAscending (A ++ B ++ E ++ C) := h.eq ▸ hs
  unfold KeysAscending at hm ⊢
  rw [List.pairwise_append, List.pairwise_append, List.pairwise_append] at hm
  obtain ⟨⟨⟨hpA, _, _⟩, _, _⟩, hpC, _⟩ := hm
  have hpB : (optB A b v).Pairwise (fun a c => a.1 < c.1) := by
    unfold optB; split <;> simp
  have hpE : (optE e x v).Pairwise (fun a c => a.1 < c.1) := by
    unfold optE; split <;> simp
  rw [List.pairwise_append, List.pairwise_append, List.pairwise_append]
  refine ⟨⟨⟨hpA, hpB, ?_⟩, hpE, ?_⟩, hpC, ?_⟩
  · intro a ha c hc
    rw [optB_key A b v c hc]; exact h.hA a ha
  · intro a ha c hc
    rw [(optE_key e x v c hc).1]
    rcases List.mem_append.mp ha with h1 | h1
    · exact lt_trans (h.hA a h1) hbe
    · rw [optB_key A b v a h1]; exact hbe
  · intro a ha c hc
    have hc' := h.hC c hc
    rcases List.mem_append.mp ha with h1 | h1
    · rcases List.mem_append.mp h1 with h2 | h2
      · exact lt_trans (lt_trans (h.hA a h2) hbe) hc'
      · rw [optB_key A b v a h2]; exact lt_trans hbe hc'
    · rw [(optE_key e x v a h1).1]; exact hc'

theorem result_hasMin [OrderBot K] [DecidableEq V] {m A B E C : List (K × V)} {b e : K} {x : V}
    (v : V) (h : Split m b e A B E C x) (hbe : b < e) (hmin : HasMinBoundary m) :
    HasMinBoundary (A ++ optB A b v ++ optE e x v ++ C) := by
  obtain ⟨p, hp, hp0⟩ := hmin
  have hpe : p.1 < e := by rw [hp0]; exact lt_of_le_of_lt bot_le hbe
  rw [h.eq] at hp
  rcases List.mem_append.mp hp with h1 | h1
  · rcases List.mem_append.mp h1 with h2 | h2
    · rcases List.mem_append.mp h2 with h3 | h3
      · exact ⟨p, by simp [h3], hp0⟩
      · have hb : b = ⊥ := by
          have := not_lt.mp (h.hB p h3).1
          rw [hp0] at this
          exact le_bot_iff.mp this
        have hA : A = [] := by
          apply List.eq_nil_iff_forall_not_mem.mpr
          intro a ha
          have := h.hA a ha
          rw [hb] at this
          exact not_lt_bot this
        refine ⟨(b, v), ?_, hb⟩
        simp [hA, optB]
    · rcases h.hE with hE | ⟨hE, _⟩
      · rw [hE] at h2
        have : p = (e, x) := by simpa using h2
        rw [this] at hpe
        exact absurd hpe (lt_irrefl _)
      · rw [hE] at h2; simp at h2
  · exact absurd hpe (not_lt.mpr (le_of_lt (h.hC p h1)))

theorem result_canonical [DecidableEq V] {m A B E C : List (K × V)} {b e : K} {x : V} (v : V)
    (h : Split m b e A B E C x) (hc : Canonical m) :
    Canonical (A ++ optB A b v ++ optE e x v ++ C) := by
  have hm : Canonical (A ++ B ++ E ++ C) := h.eq ▸ hc
  unfold Canonical at hm ⊢
  have hm1 := List.chain'_append.mp hm
  have hcC := hm1.2.1
  have hjC : ∀ c ∈ C.head?, x ≠ c.2 := by
    intro c hc'
    obtain ⟨l, hl1, hl2⟩ := Option.map_eq_some'.mp h.lastVal
    rw [← hl2]
    exact hm1.2.2 l hl1 c hc'
  have hcA : List.Chain' (fun a c => a.2 ≠ c.2) A := by
    have h2 := List.chain'_append.mp hm1.1
    exact (List.chain'_append.mp h2.1).1
  have hcP : List.Chain' (fun a c => a.2 ≠ c.2) (A ++ optB A b v) := by
    apply List.Chain'.append hcA
    · unfold optB; split <;> simp
    · intro a ha c hc'
      have hcm := List.mem_of_mem_head? hc'
      have hne : optB A b v ≠ [] := List.ne_nil_of_mem hcm
      rw [optB_key A b v c hcm]
      intro hav
      apply hne
      unfold optB
      rw [if_pos]
      rw [Option.mem_def.mp ha]
      exact congrArg some hav
  have hcQ : List.Chain' (fun a c => a.2 ≠ c.2) (A ++ optB A b v ++ optE e x v) := by
    apply List.Chain'.append hcP
    · unfold optE; split <;> simp
    · intro a ha c hc'
      have hcm := List.mem_of_mem_head? hc'
      obtain ⟨hce, hxv⟩ := optE_key e x v c hcm
      rw [hce]
      have hl := lastVal_optB A b v
      rw [Option.mem_def.mp ha] at hl
      have hav : a.2 = v := by simpa using hl
      rw [hav]
      exact fun hvx => hxv hvx.symm
  apply List.Chain'.append hcQ hcC
  intro a ha c hc'
  have hl := lastVal_optE A b e x v
  rw [Option.mem_def.mp ha] at hl
  have hax : a.2 = x := by simpa using hl
  rw [hax]
  exact hjC c hc'

/-! ## One call of `assign`, and sequences of calls -/

theorem assign_spec [OrderBot K] [DecidableEq V] (im : interval_map K V) (b e : K) (v : V)
    (hs : KeysAscending im.m_map) (hmin : HasMinBoundary im.m_map) (hbe : b < e) :
    ∃ im', im.assign b e v = some im' ∧ KeysAscending im'.m_map ∧ HasMinBoundary im'.m_map
      ∧ (Canonical im.m_map → Canonical im'.m_map)
      ∧ (∀ k, b ≤ k → k < e → im'.lookup k = some v)
      ∧ (∀ k, k < b ∨ e ≤ k → im'.lookup k = im.lookup k) := by
  obtain ⟨m⟩ := im
  obtain ⟨A, B, E, C, x, h⟩ := exists_split m b e hs hmin hbe
  refine ⟨⟨A ++ optB A b v ++ optE e x v ++ C⟩, assign_split m A B E C b e x v hbe h,
    result_sorted v h hbe hs, result_hasMin v h hbe hmin, result_canonical v h, ?_, ?_⟩
  · intro k hbk hke
    exact lookup_result_inside A C b e k x v h.hA h.hC hbk hke
  · intro k hk
    rcases hk with hkb | hek
    · show interval_map.lookup ⟨_⟩ k = interval_map.lookup ⟨m⟩ k
      rw [lookup_result_low A C b e k x v hbe h.hC hkb, h.lookup_low hbe k hkb]
    · show interval_map.lookup ⟨_⟩ k = interval_map.lookup ⟨m⟩ k
      rw [lookup_result_high A C b e k x v hbe h.hA hek, h.lookup_high hbe k hek]

theorem assign_noop [DecidableEq V] (im : interval_map K V) (b e : K) (v : V) (h : ¬ b < e) :
    im.assign b e v = some im := by
  unfold interval_map.assign
  rw [if_neg h]

theorem assign_inv [OrderBot K] [DecidableEq V] (im : interval_map K V) (b e : K) (v : V)
    (hs : KeysAscending im.m_map) (hmin : HasMinBoundary im.m_map) :
    ∃ im', im.assign b e v = some im' ∧ KeysAscending im'.m_map ∧ HasMinBoundary im'.m_map
      ∧ (Canonical im.m_map → Canonical im'.m_map) := by
  by_cases hbe : b < e
  · obtain ⟨im', h1, h2, h3, h4, _⟩ := assign_spec im b e v hs hmin hbe
    exact ⟨im', h1, h2, h3, h4⟩
  · exact ⟨im, assign_noop im b e v hbe, hs, hmin, id⟩

theorem ctor_m_map [OrderBot K] (val : V) :
    (interval_map.ctor val : interval_map K V).m_map = [(⊥, val)] := by
  simp [interval_map.ctor, map_insert_hint, map_insert, lower_bound]

theorem ctor_inv [OrderBot K] (val : V) :
    KeysAscending (interval_map.ctor val : interval_map K V).m_map
      ∧ HasMinBoundary (interval_map.ctor val : interval_map K V).m_map
      ∧ Canonical (interval_map.ctor val : interval_map K V).m_map := by
  rw [ctor_m_map]
  refine ⟨by simp [KeysAscending], ⟨(⊥, val), by simp, rfl⟩, by simp [Canonical]⟩

theorem assign_seq_inv [OrderBot K] [DecidableEq V] (calls : List (K × K × V))
    (im : interval_map K V) (hs : KeysAscending im.m_map) (hmin : HasMinBoundary im.m_map) :
    ∃ im', assign_seq im calls = some im' ∧ KeysAscending im'.m_map
      ∧ HasMinBoundary im'.m_map ∧ (Canonical im.m_map → Canonical im'.m_map) := by
  induction calls generalizing im with
  | nil => exact ⟨im, rfl, hs, hmin, id⟩
  | cons c cs ih =>
    obtain ⟨im1, h1, hs1, hmin1, hc1⟩ := assign_inv im c.1 c.2.1 c.2.2 hs hmin
    obtain ⟨im2, h2, hs2, hmin2, hc2⟩ := ih im1 hs1 hmin1
    refine ⟨im2, ?_, hs2, hmin2, fun hc => hc2 (hc1 hc)⟩
    unfold assign_seq
    rw [h1, Option.some_bind, h2]

theorem head_of_hasMin [OrderBot K] (m : List (K × V)) (hs : KeysAscending m)
    (hmin : HasMinBoundary m) : ∃ x t, m = (⊥, x) :: t := by
  obtain ⟨p, hp, hp0⟩ := hmin
  cases m with
  | nil => simp at hp
  | cons q t =>
    refine ⟨q.2, t, ?_⟩
    rcases List.mem_cons.mp hp with h | h
    · rw [← h, ← hp0]
    · have := (List.pairwise_cons.mp hs).1 p h
      rw [hp0] at this
      exact absurd this not_lt_bot

theorem sorted_split_le (m : List (K × V)) (k : K) (hs : KeysAscending m) :
    ∃ L R, m = L ++ R ∧ (∀ a ∈ L, ¬ k < a.1) ∧ (∀ c ∈ R, k < c.1) := by
  induction m with
  | nil => exact ⟨[], [], rfl, by simp, by simp⟩
  | cons p t ih =>
    have hs' := List.pairwise_cons.mp hs
    by_cases hp : k < p.1
    · refine ⟨[], p :: t, rfl, by simp, ?_⟩
      intro c hc
      rcases List.mem_cons.mp hc with h | h
      · rw [h]; exact hp
      · exact lt_trans hp (hs'.1 c h)
    · obtain ⟨L, R, hm, hL, hR⟩ := ih hs'.2
      refine ⟨p :: L, R, by rw [hm]; rfl, ?_, hR⟩
      intro a ha
      rcases List.mem_cons.mp ha with h | h
      · rw [h]; exact hp
      · exact hL a h

theorem le_getLast_of_sorted (L : List (K × V)) (l : K × V) (hs : KeysAscending L)
    (hl : L.getLast? = some l) : ∀ a ∈ L, a = l ∨ a.1 < l.1 := by
  rcases List.eq_nil_or_concat L with hnil | ⟨L', l', hL⟩
  · rw [hnil] at hl; simp at hl
  · rw [List.concat_eq_append] at hL
    subst hL
    have : l' = l := by simpa using hl
    subst this
    intro a ha
    rcases List.mem_append.mp ha with h | h
    · right
      exact (List.pairwise_append.mp hs).2.2 a h l' (by simp)
    · left; simpa using h

theorem lookup_greatest_aux [OrderBot K] (m : List (K × V)) (k : K) (hs : KeysAscending m)
    (hmin : HasMinBoundary m) :
    ∃ p ∈ m, p.1 ≤ k ∧ (∀ q ∈ m, q.1 ≤ k → q.1 ≤ p.1)
      ∧ interval_map.lookup ⟨m⟩ k = some p.2 := by
  obtain ⟨L, R, hm, hL, hR⟩ := sorted_split_le m k hs
  have hsL : KeysAscending L := by
    have : KeysAscending (L ++ R) := hm ▸ hs
    exact (List.pairwise_append.mp this).1
  obtain ⟨p0, hp0, hp00⟩ := hmin
  have hp0L : p0 ∈ L := by
    rw [hm] at hp0
    rcases List.mem_append.mp hp0 with h | h
    · exact h
    · have := hR p0 h
      rw [hp00] at this
      exact absurd this not_lt_bot
  have hne : L ≠ [] := List.ne_nil_of_mem hp0L
  have hl : L.getLast? = some (L.getLast hne) := List.getLast?_eq_getLast L hne
  have hlm : L.getLast hne ∈ L := List.getLast_mem hne
  refine ⟨L.getLast hne, by rw [hm]; exact List.mem_append_left _ hlm,
    not_lt.mp (hL _ hlm), ?_, ?_⟩
  · intro q hq hqk
    rw [hm] at hq
    rcases List.mem_append.mp hq with h | h
    · rcases le_getLast_of_sorted L _ hsL hl q h with h1 | h1
      · rw [h1]
      · exact le_of_lt h1
    · exact absurd (hR q h) (not_lt.mpr hqk)
  · rw [hm, lookup_eq_getLast L R k hL (fun c hc => hR c (List.mem_of_mem_head? hc)), hl]
    rfl

/-! ## Sequences of calls against the pointwise model -/

theorem assign_seq_model [OrderBot K] [DecidableEq V] (calls : List (K × K × V))
    (im : interval_map K V) (hs : KeysAscending im.m_map) (hmin : HasMinBoundary im.m_map)
    (k : K) (u : V) (hu : im.lookup k = some u) :
    ∃ im', assign_seq im calls = some im' ∧ im'.lookup k = some (naive_model u calls k) := by
  induction calls generalizing im u with
  | nil => exact ⟨im, rfl, hu⟩
  | cons c cs ih =>
    have hstep : ∃ im1, im.assign c.1 c.2.1 c.2.2 = some im1 ∧ KeysAscending im1.m_map
        ∧ HasMinBoundary im1.m_map
        ∧ im1.lookup k = some (if ¬ (k < c.1) ∧ k < c.2.1 then c.2.2 else u) := by
      by_cases hbe : c.1 < c.2.1
      · obtain ⟨im1, h1, h2, h3, _, h5, h6⟩ := assign_spec im c.1 c.2.1 c.2.2 hs hmin hbe
        refine ⟨im1, h1, h2, h3, ?_⟩
        by_cases hin : ¬ (k < c.1) ∧ k < c.2.1
        · rw [if_pos hin]; exact h5 k (not_lt.mp hin.1) hin.2
        · rw [if_neg hin, h6 k ?_, hu]
          by_cases hkb : k < c.1
          · exact Or.inl hkb
          · exact Or.inr (not_lt.mp (fun hke => hin ⟨hkb, hke⟩))
      · refine ⟨im, assign_noop im c.1 c.2.1 c.2.2 hbe, hs, hmin, ?_⟩
        rw [if_neg, hu]
        intro hin
        exact hbe (lt_of_le_of_lt (not_lt.mp hin.1) hin.2)
    obtain ⟨im1, h1, hs1, hmin1, hl1⟩ := hstep
    obtain ⟨im2, h2, hl2⟩ := ih im1 hs1 hmin1 _ hl1
    refine ⟨im2, ?_, hl2⟩
    unfold assign_seq
    rw [h1, Option.some_bind, h2]

theorem naive_model_eq_last (calls : List (K × K × V)) (init : V) (k : K) :
    naive_model init calls k = last_call_value init calls k := by
  induction calls generalizing init with
  | nil => rfl
  | cons c cs ih =>
    unfold naive_model
    rw [ih]
    unfold last_call_value
    rw [List.reverse_cons, List.find?_append]
    cases cs.reverse.find? (fun c => decide (c.1 ≤ k ∧ k < c.2.1)) with
    | some c' => simp
    | none =>
      by_cases hin : c.1 ≤ k ∧ k < c.2.1
      · have h2 : ¬ (k < c.1) ∧ k < c.2.1 := ⟨not_lt.mpr hin.1, hin.2⟩
        simp [List.find?, hin, h2]
      · have h2 : ¬ (¬ (k < c.1) ∧ k < c.2.1) := fun h => hin ⟨not_lt.mp h.1, h.2⟩
        rw [if_neg h2]
        simp [List.find?, hin]

/-! ## Uniqueness of the canonical form -/

theorem lookup_none_of_lt (T : List (K × V)) (k : K) (hT : ∀ c ∈ T.head?, k < c.1) :
    interval_map.lookup ⟨T⟩ k = none := by
  have := lookup_append_of_lt [] T k hT
  rw [List.nil_append] at this
  rw [this]; rfl

theorem lookup_first (k0 k : K) (x : V) (T : List (K × V)) (hk : k0 ≤ k)
    (hT : ∀ c ∈ T.head?, k < c.1) : interval_map.lookup ⟨(k0, x) :: T⟩ k = some x := by
  rw [lookup_cons, if_neg (not_lt.mpr hk), lookup_none_of_lt T k hT]
  rfl

theorem lookup_at_head (p : K × V) (t : List (K × V)) (hs : KeysAscending (p :: t)) :
    interval_map.lookup ⟨p :: t⟩ p.1 = some p.2 :=
  lookup_first p.1 p.1 p.2 t (le_refl _)
    (fun c hc => (List.pairwise_cons.mp hs).1 c (List.mem_of_mem_head? hc))

theorem lookup_skip_first (p q : K × V) (t : List (K × V)) (k : K) (hp : p.1 < q.1)
    (hk : q.1 ≤ k) :
    interval_map.lookup ⟨p :: q :: t⟩ k = interval_map.lookup ⟨q :: t⟩ k := by
  rw [lookup_cons p, if_neg (not_lt.mpr (le_trans (le_of_lt hp) hk)), lookup_cons q,
    if_neg (not_lt.mpr hk)]
  rfl

theorem lookup_differs (k0 : K) (x : V) (p : K × V) (t T : List (K × V))
    (hs : KeysAscending ((k0, x) :: p :: t)) (hc : Canonical ((k0, x) :: p :: t))
    (hT : ∀ c ∈ T.head?, p.1 < c.1) :
    interval_map.lookup ⟨(k0, x) :: p :: t⟩ p.1 ≠ interval_map.lookup ⟨(k0, x) :: T⟩ p.1 := by
  have hs' := List.pairwise_cons.mp hs
  have hkp : k0 < p.1 := hs'.1 p (List.mem_cons_self _ _)
  rw [lookup_skip_first (k0, x) p t p.1 hkp (le_refl _), lookup_at_head p t hs'.2,
    lookup_first k0 p.1 x T (le_of_lt hkp) hT]
  intro h
  have hne : x ≠ p.2 := (List.chain'_cons.mp hc).1
  exact hne (Option.some.inj h).symm

theorem canonical_unique_aux (t1 : List (K × V)) :
    ∀ (t2 : List (K × V)) (k0 : K) (x1 x2 : V),
      KeysAscending ((k0, x1) :: t1) → KeysAscending ((k0, x2) :: t2) →
      Canonical ((k0, x1) :: t1) → Canonical ((k0, x2) :: t2) →
      (∀ k, k0 ≤ k →
        interval_map.lookup ⟨(k0, x1) :: t1⟩ k = interval_map.lookup ⟨(k0, x2) :: t2⟩ k) →
      (k0, x1) :: t1 = (k0, x2) :: t2 := by
  induction t1 with
  | nil =>
    intro t2 k0 x1 x2 hs1 hs2 hc1 hc2 hlk
    have hx : x1 = x2 := by
      have := hlk k0 (le_refl _)
      rw [lookup_at_head _ _ hs1, lookup_at_head _ _ hs2] at this
      exact Option.some.inj this
    subst hx
    cases t2 with
    | nil => rfl
    | cons q t2' =>
      have hkq : k0 < q.1 := (List.pairwise_cons.mp hs2).1 q (List.mem_cons_self _ _)
      exact absurd (hlk q.1 (le_of_lt hkq)).symm
        (lookup_differs k0 x1 q t2' [] hs2 hc2 (by simp))
  | cons p t1' ih =>
    intro t2 k0 x1 x2 hs1 hs2 hc1 hc2 hlk
    have hx : x1 = x2 := by
      have := hlk k0 (le_refl _)
      rw [lookup_at_head _ _ hs1, lookup_at_head _ _ hs2] at this
      exact Option.some.inj this
    subst hx
    have hkp : k0 < p.1 := (List.pairwise_cons.mp hs1).1 p (List.mem_cons_self _ _)
    cases t2 with
    | nil =>
      exact absurd (hlk p.1 (le_of_lt hkp)) (lookup_differs k0 x1 p t1' [] hs1 hc1 (by simp))
    | cons q t2' =>
      have hkq : k0 < q.1 := (List.pairwise_cons.mp hs2).1 q (List.mem_cons_self _ _)
      rcases lt_trichotomy p.1 q.1 with hpq | hpq | hpq
      · exact absurd (hlk p.1 (le_of_lt hkp))
          (lookup_differs k0 x1 p t1' (q :: t2') hs1 hc1 (by simpa using hpq))
      · obtain ⟨pk, pv⟩ := p
        obtain ⟨qk, qv⟩ := q
        have hpq' : pk = qk := hpq
        subst hpq'
        have htail : (pk, pv) :: t1' = (pk, qv) :: t2' := by
          apply ih t2' pk pv qv (List.pairwise_cons.mp hs1).2 (List.pairwise_cons.mp hs2).2
            (List.chain'_cons.mp hc1).2 (List.chain'_cons.mp hc2).2
          intro k hk
          have h1 := lookup_skip_first (k0, x1) (pk, pv) t1' k hkp hk
          have h2 := lookup_skip_first (k0, x1) (pk, qv) t2' k hkq hk
          have h3 := hlk k (le_trans (le_of_lt hkp) hk)
          rw [h1, h2] at h3
          exact h3
        rw [htail]
      · exact absurd (hlk q.1 (le_of_lt hkq)).symm
          (lookup_differs k0 x1 q t2' (p :: t1') hs2 hc2 (by simpa using hpq))

/-! ## Number of boundaries after one call -/

theorem Split.filter_outside {m A B E C : List (K × V)} {b e : K} {x : V}
    (h : Split m b e A B E C x) (hbe : b < e) :
    m.filter (fun p => decide (p.1 < b ∨ e < p.1)) = A ++ C := by
  have hA : A.filter (fun p => decide (p.1 < b ∨ e < p.1)) = A :=
    List.filter_eq_self.mpr (fun a ha => decide_eq_true (Or.inl (h.hA a ha)))
  have hC : C.filter (fun p => decide (p.1 < b ∨ e < p.1)) = C :=
    List.filter_eq_self.mpr (fun a ha => decide_eq_true (Or.inr (h.hC a ha)))
  have hB : B.filter (fun p => decide (p.1 < b ∨ e < p.1)) = [] := by
    apply List.filter_eq_nil_iff.mpr
    intro a ha hp
    rcases of_decide_eq_true hp with h1 | h1
    · exact (h.hB a ha).1 h1
    · exact lt_asymm h1 (h.hB a ha).2
  have hE : E.filter (fun p => decide (p.1 < b ∨ e < p.1)) = [] := by
    apply List.filter_eq_nil_iff.mpr
    intro a ha hp
    rcases h.hE with hE | ⟨hE, _⟩
    · rw [hE] at ha
      have hae : a = (e, x) := by simpa using ha
      rw [hae] at hp
      rcases of_decide_eq_true hp with h1 | h1
      · exact lt_asymm h1 hbe
      · exact lt_irrefl _ h1
    · rw [hE] at ha; simp at ha
  rw [h.eq, List.filter_append, List.filter_append, List.filter_append, hA, hB, hE, hC]
  simp

theorem optB_length_le {K V : Type} [DecidableEq V] (A : List (K × V)) (b : K) (v : V) :
    (optB A b v).length ≤ 1 := by
  unfold optB; split <;> simp

theorem optE_length_le {K V : Type} [DecidableEq V] (e : K) (x v : V) : (optE e x v).length ≤ 1 := by
  unfold optE; split <;> simp

theorem Split.optB_nil_of_pred [DecidableEq V] {m A B E C : List (K × V)} {b e : K} {x : V}
    (h : Split m b e A B E C x) (hbe : b < e) (hs : KeysAscending m) (v : V) (p : K × V)
    (hp : p ∈ m) (hpb : p.1 < b) (hmax : ∀ q ∈ m, q.1 < b → q.1 ≤ p.1) (hpv : p.2 = v) :
    optB A b v = [] := by
  have hsA : KeysAscending A := by
    have hm : KeysAscending (A ++ B ++ E ++ C) := h.eq ▸ hs
    unfold KeysAscending at hm
    rw [List.pairwise_append, List.pairwise_append, List.pairwise_append] at hm
    exact hm.1.1.1
  have hpA : p ∈ A := by
    rw [h.eq] at hp
    rcases List.mem_append.mp hp with h1 | h1
    · rcases List.mem_append.mp h1 with h2 | h2
      · rcases List.mem_append.mp h2 with h3 | h3
        · exact h3
        · exact absurd hpb (h.hB p h3).1
      · rcases h.hE with hE | ⟨hE, _⟩
        · rw [hE] at h2
          have hpe : p = (e, x) := by simpa using h2
          rw [hpe] at hpb
          exact absurd hpb (lt_asymm hbe)
        · rw [hE] at h2; simp at h2
    · exact absurd hpb (lt_asymm (lt_trans hbe (h.hC p h1)))
  have hne : A ≠ [] := List.ne_nil_of_mem hpA
  have hl : A.getLast? = some (A.getLast hne) := List.getLast?_eq_getLast A hne
  have hlA : A.getLast hne ∈ A := List.getLast_mem hne
  have hlm : A.getLast hne ∈ m := by
    rw [h.eq]; simp [hlA]
  have hle : (A.getLast hne).1 ≤ p.1 := hmax _ hlm (h.hA _ hlA)
  have hpl : p = A.getLast hne := by
    rcases le_getLast_of_sorted A _ hsA hl p hpA with h1 | h1
    · exact h1
    · exact absurd h1 (not_lt.mpr hle)
  unfold optB
  rw [if_pos]
  rw [hl, ← hpl, ← hpv]
  rfl

theorem Split.lookup_end {m A B E C : List (K × V)} {b e : K} {x : V}
    (h : Split m b e A B E C x) (hbe : b < e) : interval_map.lookup ⟨m⟩ e = some x := by
  rw [h.lookup_high hbe e (le_refl _),
    lookup_none_of_lt C e (fun c hc => h.hC c (List.mem_of_mem_head? hc))]
  rfl

/-! ## Properties stated by the specification -/

/-- C1 (range containment): on a store with ascending keys and a boundary at the
minimum key, for `keyBegin < keyEnd` the call `assign(keyBegin, keyEnd, val)` returns
and afterwards `lookup(k) = val` for every `k` with `keyBegin ≤ k < keyEnd`. -/
theorem assign_range_containment [OrderBot K] [DecidableEq V] (im : interval_map K V)
    (keyBegin keyEnd k : K) (val : V)
    (hs : KeysAscending im.m_map) (hmin : HasMinBoundary im.m_map)
    (hbe : keyBegin < keyEnd) (hk : keyBegin ≤ k ∧ k < keyEnd) :
    ∃ im', im.assign keyBegin keyEnd val = some im' ∧ im'.lookup k = some val := by
  obtain ⟨im', h1, _, _, _, h5, _⟩ := assign_spec im keyBegin keyEnd val hs hmin hbe
  exact ⟨im', h1, h5 k hk.1 hk.2⟩

theorem assign_range_containment_witness :
    ∃ im', (⟨[(0, 'a'), (3, 'b'), (5, 'a')]⟩ : interval_map Nat Char).assign 2 4 'c' = some im'
      ∧ im'.lookup 3 = some 'c' :=
  assign_range_containment ⟨[(0, 'a'), (3, 'b'), (5, 'a')]⟩ 2 4 3 'c'
    (by decide) (by decide) (by decide) (by decide)

/-- C2 (outside-range preservation): on a store with ascending keys and a boundary at
the minimum key, for `keyBegin < keyEnd` the call `assign(keyBegin, keyEnd, val)`
returns and `lookup(k)` is the same before and after it for every `k` with
`k < keyBegin` or `keyEnd ≤ k`. -/
theorem assign_outside_preserved [OrderBot K] [DecidableEq V] (im : interval_map K V)
    (keyBegin keyEnd k : K) (val : V)
    (hs : KeysAscending im.m_map) (hmin : HasMinBoundary im.m_map)
    (hbe : keyBegin < keyEnd) (hk : k < keyBegin ∨ keyEnd ≤ k) :
    ∃ im', im.assign keyBegin keyEnd val = some im' ∧ im'.lookup k = im.lookup k := by
  obtain ⟨im', h1, _, _, _, _, h6⟩ := assign_spec im keyBegin keyEnd val hs hmin hbe
  exact ⟨im', h1, h6 k hk⟩

theorem assign_outside_preserved_witness :
    ∃ im', (⟨[(0, 'a'), (3, 'b'), (5, 'a')]⟩ : interval_map Nat Char).assign 2 4 'c' = some im'
      ∧ im'.lookup 4 = (⟨[(0, 'a'), (3, 'b'), (5, 'a')]⟩ : interval_map Nat Char).lookup 4 :=
  assign_outside_preserved ⟨[(0, 'a'), (3, 'b'), (5, 'a')]⟩ 2 4 4 'c'
    (by decide) (by decide) (by decide) (by decide)

/-- C3 (canonicality invariant): if the store (ascending keys, boundary at the minimum
key) has no two key-adjacent boundaries with equal values, then for any `keyBegin`,
`keyEnd`, `val` the call `assign(keyBegin, keyEnd, val)` returns a store with no two
key-adjacent boundaries with equal values; and the store built by the constructor
followed by any finite sequence of `assign` calls is canonical. -/
theorem assign_preserves_canonical [OrderBot K] [DecidableEq V] (im : interval_map K V)
    (keyBegin keyEnd : K) (val : V)
    (hs : KeysAscending im.m_map) (hmin : HasMinBoundary im.m_map)
    (hcan : Canonical im.m_map) :
    (∃ im', im.assign keyBegin keyEnd val = some im' ∧ Canonical im'.m_map) ∧
    (∀ (init : V) (calls : List (K × K × V)),
      ∃ im', assign_seq (interval_map.ctor init) calls = some im' ∧ Canonical im'.m_map) := by
  constructor
  · obtain ⟨im', h1, _, _, h4⟩ := assign_inv im keyBegin keyEnd val hs hmin
    exact ⟨im', h1, h4 hcan⟩
  · intro init calls
    obtain ⟨h1, h2, h3⟩ := ctor_inv (K := K) init
    obtain ⟨im', h4, _, _, h5⟩ := assign_seq_inv calls (interval_map.ctor init) h1 h2
    exact ⟨im', h4, h5 h3⟩

theorem assign_preserves_canonical_witness :
    (∃ im', (⟨[(0, 'a'), (3, 'b'), (5, 'a')]⟩ : interval_map Nat Char).assign 3 5 'a' = some im'
      ∧ Canonical im'.m_map) ∧
    (∀ (init : Char) (calls : List (Nat × Nat × Char)),
      ∃ im', assign_seq (interval_map.ctor init) calls = some im' ∧ Canonical im'.m_map) :=
  assign_preserves_canonical ⟨[(0, 'a'), (3, 'b'), (5, 'a')]⟩ 3 5 'a'
    (by decide) (by decide) (by decide)

/-- C4 (totality invariant): after construction and after any finite sequence of
`assign` calls the store contains a boundary at the minimum key, is not empty, and for
every key `k` the position `upper_bound(k)` is not the first position and
`lookup(k)` is defined. -/
theorem totality_invariant [OrderBot K] [DecidableEq V] (init : V)
    (calls : List (K × K × V)) :
    ∃ im, assign_seq (interval_map.ctor init) calls = some im
      ∧ HasMinBoundary im.m_map ∧ im.m_map ≠ []
      ∧ ∀ k : K, upper_bound im.m_map k ≠ map_begin im.m_map ∧ ∃ v, im.lookup k = some v := by
  obtain ⟨h1, h2, _⟩ := ctor_inv (K := K) init
  obtain ⟨im, h4, hs, hmin, _⟩ := assign_seq_inv calls (interval_map.ctor init) h1 h2
  obtain ⟨x, t, hm⟩ := head_of_hasMin im.m_map hs hmin
  refine ⟨im, h4, hmin, by rw [hm]; simp, ?_⟩
  intro k
  constructor
  · rw [hm]
    simp [upper_bound, map_begin]
  · obtain ⟨p, _, _, _, hp⟩ := lookup_greatest_aux im.m_map k hs hmin
    exact ⟨p.2, hp⟩

/-- C5 (no-op on empty range): for every store and every `keyBegin`, `keyEnd`, `val`
with `!(keyBegin < keyEnd)`, `assign` returns the store exactly as it was, so
`lookup(k)` is unchanged for every key `k`. -/
theorem assign_empty_range_noop [DecidableEq V] (im : interval_map K V)
    (keyBegin keyEnd : K) (val : V) (h : ¬ keyBegin < keyEnd) :
    ∃ im', im.assign keyBegin keyEnd val = some im' ∧ im'.m_map = im.m_map
      ∧ ∀ k, im'.lookup k = im.lookup k :=
  ⟨im, assign_noop im keyBegin keyEnd val h, rfl, fun _ => rfl⟩

theorem assign_empty_range_noop_witness :
    ∃ im', (⟨[(0, 'a'), (3, 'b')]⟩ : interval_map Nat Char).assign 100 0 'f' = some im'
      ∧ im'.m_map = [(0, 'a'), (3, 'b')]
      ∧ ∀ k, im'.lookup k = (⟨[(0, 'a'), (3, 'b')]⟩ : interval_map Nat Char).lookup k :=
  assign_empty_range_noop ⟨[(0, 'a'), (3, 'b')]⟩ 100 0 'f' (by decide)

/-- C6 (model agreement over call sequences): for every initial value, every finite
sequence of `assign` calls on the constructed store and every key `k`, the calls
return and `lookup(k)` on the final store is the value of the pointwise-overwritten
sample function of the test, which is the value of the last call whose range contains
`k`, or the initial value if there is none. -/
theorem model_agreement [OrderBot K] [DecidableEq V] (init : V) (calls : List (K × K × V))
    (k : K) :
    ∃ im, assign_seq (interval_map.ctor init) calls = some im
      ∧ im.lookup k = some (naive_model init calls k)
      ∧ naive_model init calls k = last_call_value init calls k := by
  obtain ⟨h1, h2, _⟩ := ctor_inv (K := K) init
  have h0 : (interval_map.ctor init : interval_map K V).lookup k = some init := by
    show interval_map.lookup ⟨(interval_map.ctor init : interval_map K V).m_map⟩ k = some init
    rw [ctor_m_map]
    exact lookup_first ⊥ k init [] bot_le (by simp)
  obtain ⟨im, h3, h4⟩ := assign_seq_model calls (interval_map.ctor init) h1 h2 k init h0
  exact ⟨im, h3, h4, naive_model_eq_last calls init k⟩

/-- C7 (lookup definition): on a store with strictly ascending keys and a boundary at
the minimum key, `operator[](k)` returns the value of the boundary with the greatest
key that is `≤ k`. -/
theorem lookup_greatest_key_le [OrderBot K] (im : interval_map K V) (k : K)
    (hs : KeysAscending im.m_map) (hmin : HasMinBoundary im.m_map) :
    ∃ p ∈ im.m_map, p.1 ≤ k ∧ (∀ q ∈ im.m_map, q.1 ≤ k → q.1 ≤ p.1)
      ∧ im.lookup k = some p.2 :=
  lookup_greatest_aux im.m_map k hs hmin

theorem lookup_greatest_key_le_witness :
    ∃ p ∈ [((0 : Nat), 'a'), (3, 'b'), (5, 'a')], p.1 ≤ 4
      ∧ (∀ q ∈ [((0 : Nat), 'a'), (3, 'b'), (5, 'a')], q.1 ≤ 4 → q.1 ≤ p.1)
      ∧ (⟨[(0, 'a'), (3, 'b'), (5, 'a')]⟩ : interval_map Nat Char).lookup 4 = some p.2 :=
  lookup_greatest_key_le ⟨[(0, 'a'), (3, 'b'), (5, 'a')]⟩ 4 (by decide) (by decide)

/-- C8 (idempotence): on a store with ascending keys and a boundary at the minimum key,
applying `assign(keyBegin, keyEnd, val)` twice in immediate succession returns a store
with the same `lookup(k)` for every key `k` as applying it once. -/
theorem assign_idempotent [OrderBot K] [DecidableEq V] (im : interval_map K V)
    (keyBegin keyEnd : K) (val : V)
    (hs : KeysAscending im.m_map) (hmin : HasMinBoundary im.m_map) :
    ∃ im1 im2, im.assign keyBegin keyEnd val = some im1
      ∧ im1.assign keyBegin keyEnd val = some im2
      ∧ ∀ k, im2.lookup k = im1.lookup k := by
  by_cases hbe : keyBegin < keyEnd
  · obtain ⟨im1, h1, hs1, hmin1, _, h5, _⟩ := assign_spec im keyBegin keyEnd val hs hmin hbe
    obtain ⟨im2, g1, _, _, _, g5, g6⟩ := assign_spec im1 keyBegin keyEnd val hs1 hmin1 hbe
    refine ⟨im1, im2, h1, g1, ?_⟩
    intro k
    by_cases hin : keyBegin ≤ k ∧ k < keyEnd
    · rw [g5 k hin.1 hin.2, h5 k hin.1 hin.2]
    · apply g6 k
      by_cases hkb : k < keyBegin
      · exact Or.inl hkb
      · exact Or.inr (not_lt.mp (fun hke => hin ⟨not_lt.mp hkb, hke⟩))
  · exact ⟨im, im, assign_noop im _ _ _ hbe, assign_noop im _ _ _ hbe, fun _ => rfl⟩

theorem assign_idempotent_witness :
    ∃ im1 im2, (⟨[(0, 'a'), (3, 'b'), (5, 'a')]⟩ : interval_map Nat Char).assign 2 4 'c'
        = some im1
      ∧ im1.assign 2 4 'c' = some im2 ∧ ∀ k, im2.lookup k = im1.lookup k :=
  assign_idempotent ⟨[(0, 'a'), (3, 'b'), (5, 'a')]⟩ 2 4 'c' (by decide) (by decide)

/-- C9 (canonical form is unique): two stores that both have strictly ascending keys,
a boundary at the minimum key and no two key-adjacent boundaries with equal values, and
whose `lookup(k)` agrees on every key `k`, contain exactly the same boundaries. -/
theorem canonical_form_unique [OrderBot K] (im1 im2 : interval_map K V)
    (hs1 : KeysAscending im1.m_map) (hs2 : KeysAscending im2.m_map)
    (hmin1 : HasMinBoundary im1.m_map) (hmin2 : HasMinBoundary im2.m_map)
    (hc1 : Canonical im1.m_map) (hc2 : Canonical im2.m_map)
    (hlk : ∀ k, im1.lookup k = im2.lookup k) : im1.m_map = im2.m_map := by
  obtain ⟨m1⟩ := im1
  obtain ⟨m2⟩ := im2
  obtain ⟨x1, t1, hm1⟩ := head_of_hasMin m1 hs1 hmin1
  obtain ⟨x2, t2, hm2⟩ := head_of_hasMin m2 hs2 hmin2
  simp only at hs1 hs2 hc1 hc2 hm1 hm2 ⊢
  subst hm1
  subst hm2
  exact canonical_unique_aux t1 t2 ⊥ x1 x2 hs1 hs2 hc1 hc2 (fun k _ => hlk k)

theorem canonical_form_unique_witness :
    (⟨[(0, 'a'), (3, 'b')]⟩ : interval_map Nat Char).m_map
      = (⟨[(0, 'a'), (3, 'b')]⟩ : interval_map Nat Char).m_map :=
  canonical_form_unique ⟨[(0, 'a'), (3, 'b')]⟩ ⟨[(0, 'a'), (3, 'b')]⟩
    (by decide) (by decide) (by decide) (by decide) (by decide) (by decide) (fun _ => rfl)

/-- C10 (merge behaviour): on a store with ascending keys and a boundary at the minimum
key, for `keyBegin < keyEnd` the number of boundaries after
`assign(keyBegin, keyEnd, val)` is at most the number of boundaries before the call
with key `< keyBegin` or `> keyEnd`, plus 2, and it is strictly smaller than that bound
whenever `val` is the value of the boundary immediately preceding `keyBegin` (greatest
key `< keyBegin`) or `val` is the value in force at `keyEnd` before the call. -/
theorem assign_merge_count [OrderBot K] [DecidableEq V] (im : interval_map K V)
    (keyBegin keyEnd : K) (val : V)
    (hs : KeysAscending im.m_map) (hmin : HasMinBoundary im.m_map)
    (hbe : keyBegin < keyEnd) :
    ∃ im', im.assign keyBegin keyEnd val = some im'
      ∧ im'.m_map.length
          ≤ (im.m_map.filter (fun p => decide (p.1 < keyBegin ∨ keyEnd < p.1))).length + 2
      ∧ (((∃ p ∈ im.m_map, p.1 < keyBegin
              ∧ (∀ q ∈ im.m_map, q.1 < keyBegin → q.1 ≤ p.1) ∧ p.2 = val)
            ∨ im.lookup keyEnd = some val) →
          im'.m_map.length
            < (im.m_map.filter (fun p => decide (p.1 < keyBegin ∨ keyEnd < p.1))).length + 2) := by
  obtain ⟨m⟩ := im
  obtain ⟨A, B, E, C, x, h⟩ := exists_split m keyBegin keyEnd hs hmin hbe
  refine ⟨⟨A ++ optB A keyBegin val ++ optE keyEnd x val ++ C⟩,
    assign_split m A B E C keyBegin keyEnd x val hbe h, ?_, ?_⟩
  · have h1 := optB_length_le A keyBegin val
    have h2 := optE_length_le keyEnd x val
    simp only [h.filter_outside hbe, List.length_append]
    omega
  · intro hcond
    have h1 := optB_length_le A keyBegin val
    have h2 := optE_length_le keyEnd x val
    simp only [h.filter_outside hbe, List.length_append]
    rcases hcond with ⟨p, hp, hpb, hmax, hpv⟩ | hend
    · have h0 := h.optB_nil_of_pred hbe hs val p hp hpb hmax hpv
      rw [h0]
      simp only [List.length_nil]
      omega
    · have hx : x = val := by
        have := h.lookup_end hbe
        rw [hend] at this
        exact (Option.some.inj this).symm
      have h0 : optE keyEnd x val = [] := by simp [optE, hx]
      rw [h0]
      simp only [List.length_nil]
      omega

theorem assign_merge_count_witness :
    ∃ im', (⟨[(0, 'a'), (3, 'b'), (5, 'a')]⟩ : interval_map Nat Char).assign 2 4 'a' = some im'
      ∧ im'.m_map.length
          ≤ ([((0 : Nat), 'a'), (3, 'b'), (5, 'a')].filter
              (fun p => decide (p.1 < 2 ∨ 4 < p.1))).length + 2
      ∧ (((∃ p ∈ [((0 : Nat), 'a'), (3, 'b'), (5, 'a')], p.1 < 2
              ∧ (∀ q ∈ [((0 : Nat), 'a'), (3, 'b'), (5, 'a')], q.1 < 2 → q.1 ≤ p.1)
              ∧ p.2 = 'a')
            ∨ (⟨[(0, 'a'), (3, 'b'), (5, 'a')]⟩ : interval_map Nat Char).lookup 4 = some 'a') →
          im'.m_map.length
            < ([((0 : Nat), 'a'), (3, 'b'), (5, 'a')].filter
                (fun p => decide (p.1 < 2 ∨ 4 < p.1))).length + 2) :=
  assign_merge_count ⟨[(0, 'a'), (3, 'b'), (5, 'a')]⟩ 2 4 'a' (by decide) (by decide) (by decide)


/-! ## The boundaries of the store that `assign` leaves -/

theorem Split.mem_E {m A B E C : List (K × V)} {b e : K} {x : V}
    (h : Split m b e A B E C x) (p : K × V) (hp : p ∈ E) : p = (e, x) := by
  rcases h.hE with hE | ⟨hE, _⟩
  · rw [hE] at hp; simpa using hp
  · rw [hE] at hp; simp at hp

theorem Split.mem_A_of_lt {m A B E C : List (K × V)} {b e : K} {x : V}
    (h : Split m b e A B E C x) (hbe : b < e) (p : K × V) (hp : p ∈ m) (hpb : p.1 < b) :
    p ∈ A := by
  rw [h.eq] at hp
  rcases List.mem_append.mp hp with h1 | h1
  · rcases List.mem_append.mp h1 with h2 | h2
    · rcases List.mem_append.mp h2 with h3 | h3
      · exact h3
      · exact absurd hpb (h.hB p h3).1
    · rw [h.mem_E p h2] at hpb
      exact absurd hpb (lt_asymm hbe)
  · exact absurd hpb (lt_asymm (lt_trans hbe (h.hC p h1)))

theorem Split.sorted_A {m A B E C : List (K × V)} {b e : K} {x : V}
    (h : Split m b e A B E C x) (hs : KeysAscending m) : KeysAscending A := by
  have hm : KeysAscending (A ++ B ++ E ++ C) := h.eq ▸ hs
  unfold KeysAscending at hm
  rw [List.pairwise_append, List.pairwise_append, List.pairwise_append] at hm
  exact hm.1.1.1

theorem Split.getLast_of_pred {m A B E C : List (K × V)} {b e : K} {x : V}
    (h : Split m b e A B E C x) (hbe : b < e) (hs : KeysAscending m) (p : K × V)
    (hp : p ∈ m) (hpb : p.1 < b) (hmax : ∀ q ∈ m, q.1 < b → q.1 ≤ p.1) :
    A.getLast? = some p := by
  have hpA : p ∈ A := h.mem_A_of_lt hbe p hp hpb
  have hne : A ≠ [] := List.ne_nil_of_mem hpA
  have hl : A.getLast? = some (A.getLast hne) := List.getLast?_eq_getLast A hne
  have hlA : A.getLast hne ∈ A := List.getLast_mem hne
  have hlm : A.getLast hne ∈ m := by
    rw [h.eq]; simp [hlA]
  have hle : (A.getLast hne).1 ≤ p.1 := hmax _ hlm (h.hA _ hlA)
  rcases le_getLast_of_sorted A _ (h.sorted_A hs) hl p hpA with h1 | h1
  · rw [hl, h1]
  · exact absurd h1 (not_lt.mpr hle)

theorem Split.pred_of_getLast {m A B E C : List (K × V)} {b e : K} {x : V}
    (h : Split m b e A B E C x) (hbe : b < e) (hs : KeysAscending m) (l : K × V)
    (hl : A.getLast? = some l) :
    l ∈ m ∧ l.1 < b ∧ ∀ q ∈ m, q.1 < b → q.1 ≤ l.1 := by
  have hlA : l ∈ A := List.mem_of_getLast?_eq_some hl
  refine ⟨by rw [h.eq]; simp [hlA], h.hA l hlA, ?_⟩
  intro q hq hqb
  rcases le_getLast_of_sorted A l (h.sorted_A hs) hl q (h.mem_A_of_lt hbe q hq hqb) with h1 | h1
  · rw [h1]
  · exact le_of_lt h1

theorem mem_result {K V : Type} [DecidableEq V] (A C : List (K × V)) (b e : K) (x v : V) (p : K × V) :
    p ∈ A ++ optB A b v ++ optE e x v ++ C
      ↔ p ∈ A ∨ p ∈ optB A b v ∨ p ∈ optE e x v ∨ p ∈ C := by
  simp only [List.mem_append, or_assoc]

theorem result_filter_low [DecidableEq V] (A C : List (K × V)) (b e : K) (x v : V)
    (hbe : b < e) (hA : ∀ a ∈ A, a.1 < b) (hC : ∀ c ∈ C, e < c.1) :
    (A ++ optB A b v ++ optE e x v ++ C).filter (fun p => decide (p.1 < b)) = A := by
  have h1 : A.filter (fun p => decide (p.1 < b)) = A :=
    List.filter_eq_self.mpr (fun a ha => decide_eq_true (hA a ha))
  have h2 : (optB A b v).filter (fun p => decide (p.1 < b)) = [] := by
    apply List.filter_eq_nil_iff.mpr
    intro a ha hp
    rw [optB_key A b v a ha] at hp
    exact lt_irrefl _ (of_decide_eq_true hp)
  have h3 : (optE e x v).filter (fun p => decide (p.1 < b)) = [] := by
    apply List.filter_eq_nil_iff.mpr
    intro a ha hp
    rw [(optE_key e x v a ha).1] at hp
    exact lt_asymm hbe (of_decide_eq_true hp)
  have h4 : C.filter (fun p => decide (p.1 < b)) = [] := by
    apply List.filter_eq_nil_iff.mpr
    intro a ha hp
    exact lt_asymm (lt_trans hbe (hC a ha)) (of_decide_eq_true hp)
  rw [List.filter_append, List.filter_append, List.filter_append, h1, h2, h3, h4]
  simp

theorem result_filter_high [DecidableEq V] (A C : List (K × V)) (b e : K) (x v : V)
    (hbe : b < e) (hA : ∀ a ∈ A, a.1 < b) (hC : ∀ c ∈ C, e < c.1) :
    (A ++ optB A b v ++ optE e x v ++ C).filter (fun p => decide (e < p.1)) = C := by
  have h1 : A.filter (fun p => decide (e < p.1)) = [] := by
    apply List.filter_eq_nil_iff.mpr
    intro a ha hp
    exact lt_asymm (lt_trans (hA a ha) hbe) (of_decide_eq_true hp)
  have h2 : (optB A b v).filter (fun p => decide (e < p.1)) = [] := by
    apply List.filter_eq_nil_iff.mpr
    intro a ha hp
    rw [optB_key A b v a ha] at hp
    exact lt_asymm hbe (of_decide_eq_true hp)
  have h3 : (optE e x v).filter (fun p => decide (e < p.1)) = [] := by
    apply List.filter_eq_nil_iff.mpr
    intro a ha hp
    rw [(optE_key e x v a ha).1] at hp
    exact lt_irrefl _ (of_decide_eq_true hp)
  have h4 : C.filter (fun p => decide (e < p.1)) = C :=
    List.filter_eq_self.mpr (fun a ha => decide_eq_true (hC a ha))
  rw [List.filter_append, List.filter_append, List.filter_append, h1, h2, h3, h4]
  simp

theorem Split.filter_low {m A B E C : List (K × V)} {b e : K} {x : V}
    (h : Split m b e A B E C x) (hbe : b < e) :
    m.filter (fun p => decide (p.1 < b)) = A := by
  have h1 : A.filter (fun p => decide (p.1 < b)) = A :=
    List.filter_eq_self.mpr (fun a ha => decide_eq_true (h.hA a ha))
  have h2 : B.filter (fun p => decide (p.1 < b)) = [] := by
    apply List.filter_eq_nil_iff.mpr
    intro a ha hp
    exact (h.hB a ha).1 (of_decide_eq_true hp)
  have h3 : E.filter (fun p => decide (p.1 < b)) = [] := by
    apply List.filter_eq_nil_iff.mpr
    intro a ha hp
    rw [h.mem_E a ha] at hp
    exact lt_asymm hbe (of_decide_eq_true hp)
  have h4 : C.filter (fun p => decide (p.1 < b)) = [] := by
    apply List.filter_eq_nil_iff.mpr
    intro a ha hp
    exact lt_asymm (lt_trans hbe (h.hC a ha)) (of_decide_eq_true hp)
  rw [h.eq, List.filter_append, List.filter_append, List.filter_append, h1, h2, h3, h4]
  simp

theorem Split.filter_high {m A B E C : List (K × V)} {b e : K} {x : V}
    (h : Split m b e A B E C x) (hbe : b < e) :
    m.filter (fun p => decide (e < p.1)) = C := by
  have h1 : A.filter (fun p => decide (e < p.1)) = [] := by
    apply List.filter_eq_nil_iff.mpr
    intro a ha hp
    exact lt_asymm (lt_trans (h.hA a ha) hbe) (of_decide_eq_true hp)
  have h2 : B.filter (fun p => decide (e < p.1)) = [] := by
    apply List.filter_eq_nil_iff.mpr
    intro a ha hp
    exact lt_asymm (h.hB a ha).2 (of_decide_eq_true hp)
  have h3 : E.filter (fun p => decide (e < p.1)) = [] := by
    apply List.filter_eq_nil_iff.mpr
    intro a ha hp
    rw [h.mem_E a ha] at hp
    exact lt_irrefl _ (of_decide_eq_true hp)
  have h4 : C.filter (fun p => decide (e < p.1)) = C :=
    List.filter_eq_self.mpr (fun a ha => decide_eq_true (h.hC a ha))
  rw [h.eq, List.filter_append, List.filter_append, List.filter_append, h1, h2, h3, h4]
  simp

theorem result_key_begin [DecidableEq V] (A C : List (K × V)) (b e : K) (x v : V)
    (hbe : b < e) (hA : ∀ a ∈ A, a.1 < b) (hC : ∀ c ∈ C, e < c.1) (p : K × V)
    (hp : p ∈ A ++ optB A b v ++ optE e x v ++ C) (hpb : p.1 = b) : p ∈ optB A b v := by
  rcases (mem_result A C b e x v p).mp hp with h1 | h1 | h1 | h1
  · exact absurd hpb (ne_of_lt (hA p h1))
  · exact h1
  · rw [(optE_key e x v p h1).1] at hpb
    exact absurd hpb.symm (ne_of_lt hbe)
  · exact absurd hpb.symm (ne_of_lt (lt_trans hbe (hC p h1)))

theorem result_key_end [DecidableEq V] (A C : List (K × V)) (b e : K) (x v : V)
    (hbe : b < e) (hA : ∀ a ∈ A, a.1 < b) (hC : ∀ c ∈ C, e < c.1) (p : K × V)
    (hp : p ∈ A ++ optB A b v ++ optE e x v ++ C) (hpe : p.1 = e) : p ∈ optE e x v := by
  rcases (mem_result A C b e x v p).mp hp with h1 | h1 | h1 | h1
  · exact absurd hpe (ne_of_lt (lt_trans (hA p h1) hbe))
  · rw [optB_key A b v p h1] at hpe
    exact absurd hpe (ne_of_lt hbe)
  · exact h1
  · exact absurd hpe.symm (ne_of_lt (hC p h1))


theorem Split.mem_B_of_eq {m A B E C : List (K × V)} {b e : K} {x : V}
    (h : Split m b e A B E C x) (hbe : b < e) (p : K × V) (hp : p ∈ m) (hpb : p.1 = b) :
    p ∈ B := by
  rw [h.eq] at hp
  rcases List.mem_append.mp hp with h1 | h1
  · rcases List.mem_append.mp h1 with h2 | h2
    · rcases List.mem_append.mp h2 with h3 | h3
      · exact absurd hpb (ne_of_lt (h.hA p h3))
      · exact h3
    · rw [h.mem_E p h2] at hpb
      exact absurd hpb.symm (ne_of_lt hbe)
  · exact absurd hpb.symm (ne_of_lt (lt_trans hbe (h.hC p h1)))

theorem Split.B_of_no_interior {m A B E C : List (K × V)} {b e : K} {x : V}
    (h : Split m b e A B E C x) (hs : KeysAscending m)
    (hint : ∀ q ∈ m, ¬ (b < q.1 ∧ q.1 < e)) : B = [] ∨ ∃ w, B = [(b, w)] := by
  have hkey : ∀ c ∈ B, c.1 = b := by
    intro c hc
    have hcm : c ∈ m := by rw [h.eq]; simp [hc]
    have h1 := h.hB c hc
    rcases lt_or_eq_of_le (not_lt.mp h1.1) with h2 | h2
    · exact absurd ⟨h2, h1.2⟩ (hint c hcm)
    · exact h2.symm
  have hsB : KeysAscending B := by
    have hm : KeysAscending (A ++ B ++ E ++ C) := h.eq ▸ hs
    unfold KeysAscending at hm
    rw [List.pairwise_append, List.pairwise_append, List.pairwise_append] at hm
    exact hm.1.1.2.1
  cases B with
  | nil => exact Or.inl rfl
  | cons c B' =>
    right
    have hc : c.1 = b := hkey c (List.mem_cons_self _ _)
    have hB' : B' = [] := by
      apply List.eq_nil_iff_forall_not_mem.mpr
      intro d hd
      have h1 : c.1 < d.1 := (List.pairwise_cons.mp hsB).1 d hd
      rw [hc, hkey d (List.mem_cons_of_mem _ hd)] at h1
      exact lt_irrefl _ h1
    exact ⟨c.2, by rw [hB', ← hc]⟩

theorem Split.assign_same_value [DecidableEq V] {m A B E C : List (K × V)}
    {b e : K} {x : V} (h : Split m b e A B E C x) (hbe : b < e) (hs : KeysAscending m)
    (hcan : Canonical m) (v : V)
    (hval : ∃ p ∈ m, p.1 ≤ b ∧ (∀ q ∈ m, q.1 ≤ b → q.1 ≤ p.1) ∧ p.2 = v)
    (hint : ∀ q ∈ m, ¬ (b < q.1 ∧ q.1 < e)) :
    A ++ optB A b v ++ optE e x v ++ C = m := by
  have hm : Canonical (A ++ B ++ E ++ C) := h.eq ▸ hcan
  unfold Canonical at hm
  have hc1 := List.chain'_append.mp hm
  have hc2 := List.chain'_append.mp hc1.1
  have hc3 := List.chain'_append.mp hc2.1
  obtain ⟨p, hp, hpb, hmax, hpv⟩ := hval
  have hB : optB A b v = B ∧ (A ++ B).getLast?.map Prod.snd = some v := by
    rcases h.B_of_no_interior hs hint with hB | ⟨w, hB⟩
    · have hpb' : p.1 < b := by
        rcases lt_or_eq_of_le hpb with h1 | h1
        · exact h1
        · have := h.mem_B_of_eq hbe p hp h1
          rw [hB] at this
          simp at this
      have hl := h.getLast_of_pred hbe hs p hp hpb'
        (fun q hq hqb => hmax q hq (le_of_lt hqb))
      have hlv : A.getLast?.map Prod.snd = some v := by rw [hl, ← hpv]; rfl
      rw [hB, List.append_nil]
      exact ⟨by simp [optB, hlv], hlv⟩
    · have hbm : (b, w) ∈ m := by rw [h.eq, hB]; simp
      have hpeq : p.1 = b := le_antisymm hpb (hmax (b, w) hbm (le_refl _))
      have hpB := h.mem_B_of_eq hbe p hp hpeq
      rw [hB] at hpB
      have hpw : p = (b, w) := by simpa using hpB
      have hwv : w = v := by rw [← hpv, hpw]
      subst hwv
      have hne : ¬ (A.getLast?.map Prod.snd = some w) := by
        intro hl
        obtain ⟨l, hl1, hl2⟩ := Option.map_eq_some'.mp hl
        have := hc3.2.2 l hl1 (b, w) (by rw [hB]; rfl)
        exact this hl2
      rw [hB]
      exact ⟨by simp [optB, hne], by simp⟩
  have hE : optE e x v = E := by
    rcases h.hE with hE | ⟨hE, hl⟩
    · obtain ⟨l, hl1, hl2⟩ := Option.map_eq_some'.mp hB.2
      have hne : l.2 ≠ x := hc2.2.2 l hl1 (e, x) (by rw [hE]; rfl)
      rw [hl2] at hne
      rw [hE]
      simp [optE, Ne.symm hne]
    · rw [hB.2] at hl
      have hvx : v = x := Option.some.inj hl
      rw [hE]
      simp [optE, hvx]
  rw [hB.1, hE, h.eq]


/-! ## Iterator positions inside one call -/

theorem Split.assign_upper_eq {m A B E C : List (K × V)} {b e : K} {x : V}
    (h : Split m b e A B E C x) (hbe : b < e) :
    assign_upper m e = some (A ++ B ++ (e, x) :: C, (A ++ B).length) := by
  have hAB : ∀ a ∈ A ++ B, a.1 < e := by
    intro a ha
    rcases List.mem_append.mp ha with h1 | h1
    · exact lt_trans (h.hA a h1) hbe
    · exact (h.hB a h1).2
  have hCh : ∀ c ∈ C.head?, e < c.1 := fun c hc => h.hC c (List.mem_of_mem_head? hc)
  rcases h.hE with hE | ⟨hE, hl⟩
  · rw [h.eq, hE, List.append_assoc (A ++ B)]
    exact assign_upper_found (A ++ B) C e x hAB
  · obtain ⟨l, hl1, hl2⟩ := Option.map_eq_some'.mp hl
    rw [h.eq, hE, List.append_nil, ← hl2]
    exact assign_upper_absent (A ++ B) C l e hl1 hAB hCh

theorem assign_lower_shape [DecidableEq V] (A B C : List (K × V)) (b e : K) (x v : V)
    (hbe : b < e) (hA : ∀ a ∈ A, a.1 < b) (hB : ∀ c ∈ B.head?, ¬ c.1 < b) :
    ∃ X Y r, assign_lower (A ++ B ++ (e, x) :: C) (A ++ B).length b v
        = some (X ++ Y ++ (e, x) :: C, X.length, r, (X ++ Y).length)
      ∧ (r = true → X = A) := by
  have hcases : (∀ c ∈ (B ++ (e, x) :: C).head?, b < c.1) ∨ ∃ w B', B = (b, w) :: B' := by
    cases B with
    | nil =>
      left; intro c hc
      have : c = (e, x) := by simpa using hc.symm
      rw [this]; exact hbe
    | cons c B' =>
      have h1 : ¬ c.1 < b := hB c (by simp)
      rcases lt_or_eq_of_le (not_lt.mp h1) with h | h
      · left; intro c' hc'
        have : c' = c := by simpa using hc'.symm
        rw [this]; exact h
      · right; exact ⟨c.2, B', by rw [h]⟩
  rcases hcases with hR | ⟨w, B', hBw⟩
  · have hlow := assign_lower_absent A (B ++ (e, x) :: C) (A ++ B).length b v hA hR (by simp)
    rw [List.append_assoc, hlow]
    by_cases hk : A.getLast?.map Prod.snd = some v
    · have hO : optB A b v = [] := by simp [optB, hk]
      refine ⟨A, (b, v) :: B, false, ?_, fun _ => rfl⟩
      have hn : (A ++ B).length + 1 = (A ++ ((b, v) :: B)).length := by
        simp only [List.length_append, List.length_cons]; omega
      rw [hO, List.append_nil, hn]
      simp
    · have hO : optB A b v = [(b, v)] := by simp [optB, hk]
      refine ⟨A ++ [(b, v)], B, false, ?_, fun hr => absurd hr (by decide)⟩
      have hn : (A ++ B).length + 1 = ((A ++ [(b, v)]) ++ B).length := by
        simp only [List.length_append, List.length_singleton]; omega
      rw [hO, hn]
      simp
  · subst hBw
    have hm : A ++ (b, w) :: B' ++ (e, x) :: C = A ++ (b, w) :: (B' ++ (e, x) :: C) := by simp
    have hlow := assign_lower_present A (B' ++ (e, x) :: C) (A ++ (b, w) :: B').length b v w hA
    rw [← hm] at hlow
    exact ⟨A, (b, w) :: B', _, hlow, fun _ => rfl⟩


/-! ## The operators applied to values -/

theorem assign_lower_ops_std [DecidableEq V] (m_map : List (K × V)) (n : Nat) (b : K) (v : V) :
    assign_lower_ops (value_ops.std V) m_map n b v = assign_lower m_map n b v := by
  unfold assign_lower_ops assign_lower
  simp [value_ops.std]

theorem assign_erase_ops_std [DecidableEq V] (m_map : List (K × V)) (q : Nat) (r : Bool)
    (n : Nat) (b : K) (v : V) :
    assign_erase_ops (value_ops.std V) m_map q r n b v = assign_erase m_map q r n b v := by
  unfold assign_erase_ops assign_erase
  simp [value_ops.std]

theorem assign_ops_std [DecidableEq V] (im : interval_map K V) (b e : K) (v : V) :
    assign_ops (value_ops.std V) im b e v = im.assign b e v := by
  unfold assign_ops interval_map.assign
  simp only [assign_lower_ops_std, assign_erase_ops_std]

/-! ## The container calls of one call of `assign` -/

theorem upper_bound_split (L R : List (K × V)) (k : K) (hL : ∀ a ∈ L, ¬ k < a.1)
    (hR : ∀ c ∈ R.head?, k < c.1) : upper_bound (L ++ R) k = L.length := by
  induction L with
  | nil =>
    cases R with
    | nil => rfl
    | cons c R => simp [upper_bound, hR c (by simp)]
  | cons a L ih =>
    have h1 : ¬ k < a.1 := hL a (List.mem_cons_self _ _)
    have h2 := ih (fun y hy => hL y (List.mem_cons_of_mem _ hy))
    simp [upper_bound, h1, h2]

theorem assign_upper_log_fst (m : List (K × V)) (e : K) :
    (assign_upper_log m e).map Prod.fst = assign_upper m e := by
  have hbody : ∀ c : Bool,
      (if c = true then
          (iter_prev (lower_bound m e)).bind fun end_previous_it =>
            (deref m end_previous_it).bind fun prev_item =>
              some (((map_insert_hint m (lower_bound m e) (e, prev_item.2)).1,
                  (map_insert_hint m (lower_bound m e) (e, prev_item.2)).2.1),
                [map_call.lower_bound m e,
                 map_call.insert_hint m (lower_bound m e) (e, prev_item.2)])
        else some ((m, lower_bound m e), [map_call.lower_bound m e])).map Prod.fst
      = if c = true then
          (iter_prev (lower_bound m e)).bind fun end_previous_it =>
            (deref m end_previous_it).bind fun prev_item =>
              some ((map_insert_hint m (lower_bound m e) (e, prev_item.2)).1,
                (map_insert_hint m (lower_bound m e) (e, prev_item.2)).2.1)
        else some (m, lower_bound m e) := by
    intro c
    cases c with
    | false => rfl
    | true =>
      simp only [if_true]
      cases iter_prev (lower_bound m e) with
      | none => rfl
      | some q =>
        simp only [Option.some_bind]
        cases deref m q with
        | none => rfl
        | some item => rfl
  unfold assign_upper_log assign_upper
  simp only [Option.bind_eq_bind]
  by_cases hend : lower_bound m e = map_end m
  · simp only [if_pos hend, Option.some_bind]
    exact hbody true
  · simp only [if_neg hend]
    cases deref m (lower_bound m e) with
    | none => rfl
    | some p =>
      simp only [Option.map_some', Option.some_bind]
      exact hbody (decide (e < p.1))

theorem assign_erase_log_fst [DecidableEq V] (m : List (K × V)) (q : Nat) (r : Bool)
    (n : Nat) (b : K) (v : V) :
    (assign_erase_log m q r n b v).map Prod.fst = assign_erase m q r n b v := by
  have hcore : ∀ ee : Nat,
      ((map_erase m q ee).bind fun m_map' =>
          if r = true then
            some ((map_insert_hint m_map' (iter_after_erase q ee) (b, v)).1,
              [map_call.erase m q ee,
               map_call.insert_hint m_map' (iter_after_erase q ee) (b, v)])
          else some (m_map', [map_call.erase m q ee])).map Prod.fst
        = (map_erase m q ee).bind fun m_map' =>
            if r = true then some (map_insert_hint m_map' (iter_after_erase q ee) (b, v)).1
            else some m_map' := by
    intro ee
    cases map_erase m q ee with
    | none => rfl
    | some m' => cases r <;> rfl
  unfold assign_erase_log assign_erase
  simp only [Option.bind_eq_bind]
  cases deref m n with
  | none => rfl
  | some item =>
    simp only [Option.some_bind]
    by_cases hv : item.2 = v
    · simp only [if_pos hv]
      cases iter_next m n with
      | none => rfl
      | some ee =>
        simp only [Option.some_bind]
        exact hcore ee
    · simp only [if_neg hv, Option.some_bind]
      exact hcore n

theorem assign_log_fst [DecidableEq V] (im : interval_map K V) (b e : K) (v : V) :
    (assign_log im b e v).map Prod.fst = im.assign b e v := by
  unfold assign_log interval_map.assign
  by_cases hbe : b < e
  · simp only [if_pos hbe, Option.bind_eq_bind]
    rw [← assign_upper_log_fst]
    cases assign_upper_log im.m_map e with
    | none => rfl
    | some up =>
      simp only [Option.some_bind, Option.map_some']
      cases assign_lower up.1.1 up.1.2 b v with
      | none => rfl
      | some lo =>
        simp only [Option.some_bind]
        rw [← assign_erase_log_fst]
        cases assign_erase_log lo.1 lo.2.1 lo.2.2.1 lo.2.2.2 b v with
        | none => rfl
        | some er => rfl
  · simp only [if_neg hbe]
    rfl


theorem hinted_insert_split (L R : List (K × V)) (t : K × V) (hL : ∀ a ∈ L, a.1 < t.1)
    (hR : ∀ c ∈ R.head?, t.1 < c.1) :
    L.length = upper_bound (L ++ R) t.1
      ∧ map_insert_hint (L ++ R) L.length t
          = ((L ++ R).take L.length ++ t :: (L ++ R).drop L.length, L.length, true) := by
  refine ⟨(upper_bound_split L R t.1 (fun a ha => not_lt.mpr (le_of_lt (hL a ha))) hR).symm, ?_⟩
  unfold map_insert_hint
  rw [map_insert_absent L R t hL hR, List.take_left, List.drop_left]

theorem assign_upper_log_absent (P C : List (K × V)) (l : K × V) (e : K)
    (hl : P.getLast? = some l)
    (hP : ∀ a ∈ P, a.1 < e) (hC : ∀ c ∈ C.head?, e < c.1) :
    assign_upper_log (P ++ C) e
      = some ((P ++ (e, l.2) :: C, P.length),
          [map_call.lower_bound (P ++ C) e, map_call.insert_hint (P ++ C) P.length (e, l.2)]) := by
  have hlb : lower_bound (P ++ C) e = P.length :=
    lower_bound_split _ C e hP (fun c hc => not_lt.mpr (le_of_lt (hC c hc)))
  have hins : map_insert (P ++ C) (e, l.2) = (P ++ (e, l.2) :: C, P.length, true) :=
    map_insert_absent P C (e, l.2) hP hC
  have hp : deref (P ++ C) (P.length - 1) = some l := getElem?_split_last P C l hl
  have h0 : P.length ≠ 0 := length_ne_zero_of_getLast? P l hl
  unfold assign_upper_log
  simp only [hlb, map_insert_hint]
  cases C with
  | nil =>
    simp only [List.append_nil] at hp hins ⊢
    simp [map_end, iter_prev, h0, hp, hins]
  | cons c C =>
    have hc : e < c.1 := hC c (by simp)
    have hd : deref (P ++ c :: C) P.length = some c := getElem?_split P C c
    simp [map_end, hd, hc, iter_prev, hp, h0, hins]

theorem assign_upper_log_found (L C : List (K × V)) (e : K) (x : V) (hL : ∀ a ∈ L, a.1 < e) :
    assign_upper_log (L ++ (e, x) :: C) e
      = some ((L ++ (e, x) :: C, L.length), [map_call.lower_bound (L ++ (e, x) :: C) e]) := by
  have hlb : lower_bound (L ++ (e, x) :: C) e = L.length :=
    lower_bound_split L _ e hL (by simp)
  have hd : deref (L ++ (e, x) :: C) L.length = some (e, x) := getElem?_split L C (e, x)
  unfold assign_upper_log
  simp [hlb, map_end, hd]

theorem assign_erase_log_split [DecidableEq V] (X Y C : List (K × V)) (e b : K) (x v : V)
    (r : Bool) :
    ∃ ee, assign_erase_log (X ++ Y ++ (e, x) :: C) X.length r (X ++ Y).length b v
      = some (if r then ((map_insert (X ++ (optE e x v ++ C)) (b, v)).1,
                  [map_call.erase (X ++ Y ++ (e, x) :: C) X.length ee,
                   map_call.insert_hint (X ++ (optE e x v ++ C)) X.length (b, v)])
              else (X ++ (optE e x v ++ C),
                  [map_call.erase (X ++ Y ++ (e, x) :: C) X.length ee])) := by
  have hd : deref (X ++ Y ++ (e, x) :: C) (X ++ Y).length = some (e, x) :=
    getElem?_split (X ++ Y) C (e, x)
  have hle : X.length ≤ (X ++ Y).length := by simp
  unfold assign_erase_log
  simp only [hd, Option.bind_eq_bind, Option.some_bind, iter_after_erase, map_insert_hint]
  by_cases hxv : x = v
  · subst hxv
    have hlt : (X ++ Y).length < (X ++ Y ++ (e, x) :: C).length := by simp
    have hr : X.length ≤ (X ++ Y).length + 1 ∧
        (X ++ Y).length + 1 ≤ (X ++ Y ++ (e, x) :: C).length :=
      ⟨Nat.le_succ_of_le hle, hlt⟩
    refine ⟨(X ++ Y).length + 1, ?_⟩
    simp only [if_true, iter_next, if_pos hlt, Option.some_bind, map_erase, if_pos hr,
      map_erase_split_succ, optE, List.nil_append]
    cases r <;> simp
  · have hr : X.length ≤ (X ++ Y).length ∧
        (X ++ Y).length ≤ (X ++ Y ++ (e, x) :: C).length := ⟨hle, by simp⟩
    refine ⟨(X ++ Y).length, ?_⟩
    simp only [if_neg hxv, Option.some_bind, map_erase, if_pos hr, map_erase_split, optE,
      List.singleton_append]
    cases r <;> simp

theorem Split.assign_upper_log_eq {m A B E C : List (K × V)} {b e : K} {x : V}
    (h : Split m b e A B E C x) (hbe : b < e) :
    ∃ calls, assign_upper_log m e = some ((A ++ B ++ (e, x) :: C, (A ++ B).length), calls)
      ∧ calls.filter map_call.cold = [map_call.lower_bound m e]
      ∧ ∀ m0 p t, map_call.insert_hint m0 p t ∈ calls →
          t.1 = e ∧ p = upper_bound m0 t.1
            ∧ map_insert_hint m0 p t = (m0.take p ++ t :: m0.drop p, p, true) := by
  have hAB : ∀ a ∈ A ++ B, a.1 < e := by
    intro a ha
    rcases List.mem_append.mp ha with h1 | h1
    · exact lt_trans (h.hA a h1) hbe
    · exact (h.hB a h1).2
  have hCh : ∀ c ∈ C.head?, e < c.1 := fun c hc => h.hC c (List.mem_of_mem_head? hc)
  rcases h.hE with hE | ⟨hE, hl⟩
  · refine ⟨[map_call.lower_bound m e], ?_, rfl, ?_⟩
    · rw [h.eq, hE, List.append_assoc (A ++ B)]
      exact assign_upper_log_found (A ++ B) C e x hAB
    · intro m0 p t ht
      simp at ht
  · obtain ⟨l, hl1, hl2⟩ := Option.map_eq_some'.mp hl
    have hm : m = A ++ B ++ C := by rw [h.eq, hE, List.append_nil]
    refine ⟨[map_call.lower_bound m e, map_call.insert_hint m (A ++ B).length (e, l.2)],
      ?_, rfl, ?_⟩
    · rw [hm, ← hl2]
      exact assign_upper_log_absent (A ++ B) C l e hl1 hAB hCh
    · intro m0 p t ht
      simp only [List.mem_cons, List.mem_singleton, List.not_mem_nil, or_false] at ht
      rcases ht with ht | ht
      · exact absurd ht (by simp)
      · have h1 : m0 = m := (map_call.insert_hint.inj ht).1
        have h2 : p = (A ++ B).length := (map_call.insert_hint.inj ht).2.1
        have h3 : t = (e, l.2) := (map_call.insert_hint.inj ht).2.2
        subst h1 h2 h3
        have := hinted_insert_split (A ++ B) C (e, l.2) hAB hCh
        rw [← hm] at this
        exact ⟨rfl, this.1, this.2⟩


/-! ## Further properties stated by the specification -/

/-- C11 (constructor): for every initial value `val` the constructed store contains
exactly one boundary, `(minimum key, val)`, and `lookup(k) = val` for every key `k`. -/
theorem ctor_single_boundary [OrderBot K] (val : V) :
    (interval_map.ctor val : interval_map K V).m_map = [(⊥, val)]
      ∧ ∀ k : K, (interval_map.ctor val : interval_map K V).lookup k = some val := by
  refine ⟨ctor_m_map val, fun k => ?_⟩
  show interval_map.lookup ⟨(interval_map.ctor val : interval_map K V).m_map⟩ k = some val
  rw [ctor_m_map]
  exact lookup_first ⊥ k val [] bot_le (by simp)

/-- C12 (concrete scenario, `int` keys and `char` values): starting from the store
constructed with `'a'`, the five `assign` calls of the hard-coded test return, and
after each of them `operator[]` gives the values the test asserts. -/
theorem concrete_scenario :
    ∃ im1 im2 im3 im4 im5 : interval_map int Char,
      (interval_map.ctor 'a' : interval_map int Char).assign (int.ofInt 0) (int.ofInt 100) 'b'
          = some im1
        ∧ im1.lookup (int.ofInt (-10)) = some 'a' ∧ im1.lookup (int.ofInt 0) = some 'b'
        ∧ im1.lookup (int.ofInt 50) = some 'b' ∧ im1.lookup (int.ofInt 100) = some 'a'
        ∧ im1.lookup (int.ofInt 110) = some 'a'
      ∧ im1.assign (int.ofInt 50) (int.ofInt 100) 'c' = some im2
        ∧ im2.lookup (int.ofInt 50) = some 'c' ∧ im2.lookup (int.ofInt 70) = some 'c'
        ∧ im2.lookup (int.ofInt 100) = some 'a'
      ∧ im2.assign (int.ofInt 50) (int.ofInt 60) 'd' = some im3
        ∧ im3.lookup (int.ofInt 50) = some 'd' ∧ im3.lookup (int.ofInt 60) = some 'c'
        ∧ im3.lookup (int.ofInt 80) = some 'c'
      ∧ im3.assign (int.ofInt 30) (int.ofInt 80) 'e' = some im4
        ∧ im4.lookup (int.ofInt 30) = some 'e' ∧ im4.lookup (int.ofInt 50) = some 'e'
        ∧ im4.lookup (int.ofInt 80) = some 'c'
      ∧ im4.assign (int.ofInt 100) (int.ofInt 0) 'f' = some im5
        ∧ im5.lookup (int.ofInt 100) = some 'a' ∧ im5.lookup (int.ofInt 0) = some 'b' :=
  ⟨⟨[(⊥, 'a'), (int.ofInt 0, 'b'), (int.ofInt 100, 'a')]⟩,
   ⟨[(⊥, 'a'), (int.ofInt 0, 'b'), (int.ofInt 50, 'c'), (int.ofInt 100, 'a')]⟩,
   ⟨[(⊥, 'a'), (int.ofInt 0, 'b'), (int.ofInt 50, 'd'), (int.ofInt 60, 'c'),
     (int.ofInt 100, 'a')]⟩,
   ⟨[(⊥, 'a'), (int.ofInt 0, 'b'), (int.ofInt 30, 'e'), (int.ofInt 80, 'c'),
     (int.ofInt 100, 'a')]⟩,
   ⟨[(⊥, 'a'), (int.ofInt 0, 'b'), (int.ofInt 30, 'e'), (int.ofInt 80, 'c'),
     (int.ofInt 100, 'a')]⟩,
   by decide⟩


/-- C13 (type constraints), evaluated on the code: line 130 of `assign` applies
`operator!=` to values.  For two value types with the same `operator==` on `char`
values, one whose `operator!=` always answers `false` and one whose `operator!=` is the
negation of `operator==`, `assign(1, 5, 'b')` on the store `(0,'a')` gives different
stores; with the first the new boundary at `1` is erased again. -/
theorem assign_applies_value_ne :
    assign_ops (⟨fun a b => decide (a = b), fun _ _ => false⟩ : value_ops Char)
        (⟨[((0 : Nat), 'a')]⟩ : interval_map Nat Char) 1 5 'b'
      = some ⟨[(0, 'a'), (5, 'a')]⟩
    ∧ assign_ops (value_ops.std Char) (⟨[((0 : Nat), 'a')]⟩ : interval_map Nat Char) 1 5 'b'
      = some ⟨[(0, 'a'), (1, 'b'), (5, 'a')]⟩
    ∧ (⟨[((0 : Nat), 'a')]⟩ : interval_map Nat Char).assign 1 5 'b'
      = some ⟨[(0, 'a'), (1, 'b'), (5, 'a')]⟩ := by
  decide

/-- C14 (cold-search ceiling): on a store with ascending keys and a boundary at the
minimum key, for `keyBegin < keyEnd` the container calls of `assign` that search from
scratch are exactly the `lower_bound(keyEnd)` and the `insert` of `(keyBegin, val)`;
every position-hinted insert inserts a boundary at `keyEnd` or at `keyBegin`, its hint
is the position of the first boundary with a greater key in the store at that moment
(the end position when there is none), and the new boundary is put at that position,
directly before the boundary the hint pointed to. -/
theorem assign_cold_search_ceiling [OrderBot K] [DecidableEq V] (im : interval_map K V)
    (keyBegin keyEnd : K) (val : V)
    (hs : KeysAscending im.m_map) (hmin : HasMinBoundary im.m_map)
    (hbe : keyBegin < keyEnd) :
    ∃ im' calls, assign_log im keyBegin keyEnd val = some (im', calls)
      ∧ im.assign keyBegin keyEnd val = some im'
      ∧ (∃ m1, calls.filter map_call.cold
          = [map_call.lower_bound im.m_map keyEnd, map_call.insert m1 (keyBegin, val)])
      ∧ ∀ m0 p t, map_call.insert_hint m0 p t ∈ calls →
          (t.1 = keyEnd ∨ t.1 = keyBegin) ∧ p = upper_bound m0 t.1
            ∧ map_insert_hint m0 p t = (m0.take p ++ t :: m0.drop p, p, true) := by
  obtain ⟨m⟩ := im
  obtain ⟨A, B, E, C, x, h⟩ := exists_split m keyBegin keyEnd hs hmin hbe
  have hBh : ∀ c ∈ B.head?, ¬ c.1 < keyBegin :=
    fun c hc => (h.hB c (List.mem_of_mem_head? hc)).1
  obtain ⟨calls1, hup, hcold1, hhint1⟩ := h.assign_upper_log_eq hbe
  obtain ⟨X, Y, r, hlo, hrX⟩ := assign_lower_shape A B C keyBegin keyEnd x val hbe h.hA hBh
  obtain ⟨ee, her⟩ := assign_erase_log_split X Y C keyEnd keyBegin x val r
  have hlog : assign_log ⟨m⟩ keyBegin keyEnd val
      = some (⟨(if r then ((map_insert (X ++ (optE keyEnd x val ++ C)) (keyBegin, val)).1,
                  [map_call.erase (X ++ Y ++ (keyEnd, x) :: C) X.length ee,
                   map_call.insert_hint (X ++ (optE keyEnd x val ++ C)) X.length
                     (keyBegin, val)])
              else (X ++ (optE keyEnd x val ++ C),
                  [map_call.erase (X ++ Y ++ (keyEnd, x) :: C) X.length ee])).1⟩,
          calls1 ++ [map_call.insert (A ++ B ++ (keyEnd, x) :: C) (keyBegin, val)]
            ++ (if r then ((map_insert (X ++ (optE keyEnd x val ++ C)) (keyBegin, val)).1,
                  [map_call.erase (X ++ Y ++ (keyEnd, x) :: C) X.length ee,
                   map_call.insert_hint (X ++ (optE keyEnd x val ++ C)) X.length
                     (keyBegin, val)])
              else (X ++ (optE keyEnd x val ++ C),
                  [map_call.erase (X ++ Y ++ (keyEnd, x) :: C) X.length ee])).2) := by
    unfold assign_log
    rw [if_pos hbe]
    simp only [hup, Option.bind_eq_bind, Option.some_bind, hlo, her]
  have hasg := assign_log_fst (⟨m⟩ : interval_map K V) keyBegin keyEnd val
  rw [hlog, Option.map_some'] at hasg
  refine ⟨_, _, hlog, hasg.symm, ⟨A ++ B ++ (keyEnd, x) :: C, ?_⟩, ?_⟩
  · rw [List.filter_append, List.filter_append, hcold1]
    cases r <;> rfl
  · intro m0 p t ht
    rcases List.mem_append.mp ht with h1 | h1
    · rcases List.mem_append.mp h1 with h2 | h2
      · obtain ⟨g1, g2, g3⟩ := hhint1 m0 p t h2
        exact ⟨Or.inl g1, g2, g3⟩
      · simp at h2
    · cases r with
      | false => simp at h1
      | true =>
        have hXA : X = A := hrX rfl
        subst hXA
        simp only [if_true, List.mem_cons, List.mem_singleton, List.not_mem_nil, or_false] at h1
        rcases h1 with h1 | h1
        · exact absurd h1 (by simp)
        · have e1 : m0 = X ++ (optE keyEnd x val ++ C) := (map_call.insert_hint.inj h1).1
          have e2 : p = X.length := (map_call.insert_hint.inj h1).2.1
          have e3 : t = (keyBegin, val) := (map_call.insert_hint.inj h1).2.2
          subst e1 e2 e3
          have hR : ∀ c ∈ (optE keyEnd x val ++ C).head?, keyBegin < c.1 := by
            intro c hc
            rcases mem_of_head?_append _ _ c hc with g | g
            · rw [(optE_key keyEnd x val c g).1]; exact hbe
            · exact lt_trans hbe (h.hC c (List.mem_of_mem_head? g))
          have := hinted_insert_split X (optE keyEnd x val ++ C) (keyBegin, val) h.hA hR
          exact ⟨Or.inr rfl, this.1, this.2⟩

theorem assign_cold_search_ceiling_witness :
    ∃ im' calls,
      assign_log (⟨[(0, 'a'), (3, 'b'), (5, 'a')]⟩ : interval_map Nat Char) 3 4 'c'
          = some (im', calls)
      ∧ (⟨[(0, 'a'), (3, 'b'), (5, 'a')]⟩ : interval_map Nat Char).assign 3 4 'c' = some im'
      ∧ (∃ m1, calls.filter map_call.cold
          = [map_call.lower_bound [((0 : Nat), 'a'), (3, 'b'), (5, 'a')] 4,
             map_call.insert m1 (3, 'c')])
      ∧ ∀ m0 p t, map_call.insert_hint m0 p t ∈ calls →
          (t.1 = 4 ∨ t.1 = 3) ∧ p = upper_bound m0 t.1
            ∧ map_insert_hint m0 p t = (m0.take p ++ t :: m0.drop p, p, true) :=
  assign_cold_search_ceiling ⟨[(0, 'a'), (3, 'b'), (5, 'a')]⟩ 3 4 'c'
    (by decide) (by decide) (by decide)


/-- C15 (iterator validity in `assign`): on a store with ascending keys and a boundary
at the minimum key, for `keyBegin < keyEnd` no step of `assign` is undefined: the
position found by `lower_bound(keyEnd)` is not the first position, the stage that steps
back from it returns, the stage that looks at the predecessor of the `keyBegin`
boundary returns, the erase-end position is dereferenceable when its value is compared
with `val`, the erase range is a valid forward range, and the call returns. -/
theorem assign_iterators_valid [OrderBot K] [DecidableEq V] (im : interval_map K V)
    (keyBegin keyEnd : K) (val : V)
    (hs : KeysAscending im.m_map) (hmin : HasMinBoundary im.m_map)
    (hbe : keyBegin < keyEnd) :
    ∃ up lo next_item erase_end_it m',
      lower_bound im.m_map keyEnd ≠ map_begin im.m_map
      ∧ assign_upper im.m_map keyEnd = some up
      ∧ assign_lower up.1 up.2 keyBegin val = some lo
      ∧ deref lo.1 lo.2.2.2 = some next_item
      ∧ (if next_item.2 = val then iter_next lo.1 lo.2.2.2 else some lo.2.2.2)
          = some erase_end_it
      ∧ lo.2.1 ≤ erase_end_it ∧ erase_end_it ≤ map_end lo.1
      ∧ assign_erase lo.1 lo.2.1 lo.2.2.1 lo.2.2.2 keyBegin val = some m'
      ∧ im.assign keyBegin keyEnd val = some ⟨m'⟩ := by
  obtain ⟨m⟩ := im
  obtain ⟨A, B, E, C, x, h⟩ := exists_split m keyBegin keyEnd hs hmin hbe
  obtain ⟨x0, t, hm⟩ := head_of_hasMin m hs hmin
  have hBh : ∀ c ∈ B.head?, ¬ c.1 < keyBegin :=
    fun c hc => (h.hB c (List.mem_of_mem_head? hc)).1
  obtain ⟨X, Y, r, hlo, _⟩ := assign_lower_shape A B C keyBegin keyEnd x val hbe h.hA hBh
  have hup := h.assign_upper_eq hbe
  have hasg := assign_split m A B E C keyBegin keyEnd x val hbe h
  have hd : deref (X ++ Y ++ (keyEnd, x) :: C) (X ++ Y).length = some (keyEnd, x) :=
    getElem?_split (X ++ Y) C (keyEnd, x)
  have her := assign_erase_split X Y C keyEnd keyBegin x val r
  have hlb : lower_bound m keyEnd ≠ map_begin m := by
    rw [hm]
    have : (⊥ : K) < keyEnd := lt_of_le_of_lt bot_le hbe
    simp [lower_bound, map_begin, this]
  have hres : (if r then (map_insert (X ++ (optE keyEnd x val ++ C)) (keyBegin, val)).1
      else X ++ (optE keyEnd x val ++ C))
      = A ++ optB A keyBegin val ++ optE keyEnd x val ++ C := by
    have h1 := hasg
    unfold interval_map.assign at h1
    rw [if_pos hbe] at h1
    simp only [hup, Option.bind_eq_bind, Option.some_bind, hlo, her] at h1
    exact congrArg interval_map.m_map (Option.some.inj h1)
  refine ⟨_, _, (keyEnd, x),
    if x = val then (X ++ Y).length + 1 else (X ++ Y).length, _,
    hlb, hup, hlo, hd, ?_, ?_, ?_, her, ?_⟩
  · by_cases hxv : x = val
    · simp [hxv, iter_next]
    · simp [hxv]
  · show X.length ≤ _
    have hXY : X.length ≤ (X ++ Y).length := by simp
    split <;> omega
  · show _ ≤ (X ++ Y ++ (keyEnd, x) :: C).length
    have hlen : (X ++ Y ++ (keyEnd, x) :: C).length = (X ++ Y).length + (C.length + 1) := by
      rw [List.length_append (X ++ Y)]; rfl
    split <;> omega
  · rw [hres]; exact hasg

theorem assign_iterators_valid_witness :
    ∃ up lo next_item erase_end_it m',
      lower_bound [((0 : Nat), 'a'), (3, 'b'), (5, 'a')] 4
          ≠ map_begin [((0 : Nat), 'a'), (3, 'b'), (5, 'a')]
      ∧ assign_upper [((0 : Nat), 'a'), (3, 'b'), (5, 'a')] 4 = some up
      ∧ assign_lower up.1 up.2 2 'c' = some lo
      ∧ deref lo.1 lo.2.2.2 = some next_item
      ∧ (if next_item.2 = 'c' then iter_next lo.1 lo.2.2.2 else some lo.2.2.2)
          = some erase_end_it
      ∧ lo.2.1 ≤ erase_end_it ∧ erase_end_it ≤ map_end lo.1
      ∧ assign_erase lo.1 lo.2.1 lo.2.2.1 lo.2.2.2 2 'c' = some m'
      ∧ (⟨[(0, 'a'), (3, 'b'), (5, 'a')]⟩ : interval_map Nat Char).assign 2 4 'c' = some ⟨m'⟩ :=
  assign_iterators_valid ⟨[(0, 'a'), (3, 'b'), (5, 'a')]⟩ 2 4 'c'
    (by decide) (by decide) (by decide)


/-- C16 (left-edge check): on a store with ascending keys and a boundary at the minimum
key, for `keyBegin < keyEnd` the store after `assign(keyBegin, keyEnd, val)` contains a
boundary with key `keyBegin` if and only if `keyBegin` is the key of the first boundary
or the boundary immediately preceding `keyBegin` (greatest key `< keyBegin`) has a value
different from `val`; when present its value is `val`. -/
theorem assign_left_edge [OrderBot K] [DecidableEq V] (im : interval_map K V)
    (keyBegin keyEnd : K) (val : V)
    (hs : KeysAscending im.m_map) (hmin : HasMinBoundary im.m_map)
    (hbe : keyBegin < keyEnd) :
    ∃ im', im.assign keyBegin keyEnd val = some im'
      ∧ ((∃ p ∈ im'.m_map, p.1 = keyBegin) ↔
          (im.m_map.head?.map Prod.fst = some keyBegin
            ∨ ∃ p ∈ im.m_map, p.1 < keyBegin
                ∧ (∀ q ∈ im.m_map, q.1 < keyBegin → q.1 ≤ p.1) ∧ p.2 ≠ val))
      ∧ ∀ p ∈ im'.m_map, p.1 = keyBegin → p.2 = val := by
  obtain ⟨m⟩ := im
  obtain ⟨A, B, E, C, x, h⟩ := exists_split m keyBegin keyEnd hs hmin hbe
  obtain ⟨x0, t, hm⟩ := head_of_hasMin m hs hmin
  refine ⟨⟨A ++ optB A keyBegin val ++ optE keyEnd x val ++ C⟩,
    assign_split m A B E C keyBegin keyEnd x val hbe h, ?_, ?_⟩
  · show (∃ p ∈ A ++ optB A keyBegin val ++ optE keyEnd x val ++ C, p.1 = keyBegin) ↔
      (m.head?.map Prod.fst = some keyBegin
        ∨ ∃ p ∈ m, p.1 < keyBegin ∧ (∀ q ∈ m, q.1 < keyBegin → q.1 ≤ p.1) ∧ p.2 ≠ val)
    constructor
    · rintro ⟨p, hp, hpb⟩
      have hpB := result_key_begin A C keyBegin keyEnd x val hbe h.hA h.hC p hp hpb
      have hk : ¬ (A.getLast?.map Prod.snd = some val) := by
        intro hk
        have : optB A keyBegin val = [] := by simp [optB, hk]
        rw [this] at hpB
        simp at hpB
      rcases List.eq_nil_or_concat A with hA | ⟨A', l, hA⟩
      · left
        have h0 : ((⊥ : K), x0) ∈ m := by rw [hm]; exact List.mem_cons_self _ _
        have hnb : ¬ (⊥ : K) < keyBegin := by
          intro hlt
          have := h.mem_A_of_lt hbe (⊥, x0) h0 hlt
          rw [hA] at this
          simp at this
        have hb : keyBegin = ⊥ := le_bot_iff.mp (not_lt.mp hnb)
        rw [hm, hb]
        rfl
      · right
        have hl : A.getLast? = some l := by rw [hA]; simp
        obtain ⟨h1, h2, h3⟩ := h.pred_of_getLast hbe hs l hl
        refine ⟨l, h1, h2, h3, ?_⟩
        intro hlv
        apply hk
        rw [hl, ← hlv]
        rfl
    · intro hcond
      have hO : optB A keyBegin val = [(keyBegin, val)] := by
        rcases hcond with hhead | ⟨p, hp, hpb, hmax, hpv⟩
        · have hb : keyBegin = ⊥ := by
            rw [hm] at hhead
            simpa using hhead.symm
          have hA : A = [] := by
            apply List.eq_nil_iff_forall_not_mem.mpr
            intro a ha
            have := h.hA a ha
            rw [hb] at this
            exact not_lt_bot this
          simp [hA, optB]
        · have hl := h.getLast_of_pred hbe hs p hp hpb hmax
          simp [optB, hl, hpv]
      exact ⟨(keyBegin, val), by simp [hO], rfl⟩
  · intro p hp hpb
    have hpB := result_key_begin A C keyBegin keyEnd x val hbe h.hA h.hC p hp hpb
    rw [optB_key A keyBegin val p hpB]

theorem assign_left_edge_witness :
    ∃ im', (⟨[(0, 'a'), (3, 'b'), (5, 'a')]⟩ : interval_map Nat Char).assign 3 4 'a' = some im'
      ∧ ((∃ p ∈ im'.m_map, p.1 = 3) ↔
          ([((0 : Nat), 'a'), (3, 'b'), (5, 'a')].head?.map Prod.fst = some 3
            ∨ ∃ p ∈ [((0 : Nat), 'a'), (3, 'b'), (5, 'a')], p.1 < 3
                ∧ (∀ q ∈ [((0 : Nat), 'a'), (3, 'b'), (5, 'a')], q.1 < 3 → q.1 ≤ p.1)
                ∧ p.2 ≠ 'a'))
      ∧ ∀ p ∈ im'.m_map, p.1 = 3 → p.2 = 'a' :=
  assign_left_edge ⟨[(0, 'a'), (3, 'b'), (5, 'a')]⟩ 3 4 'a' (by decide) (by decide) (by decide)

/-- C17 (right-edge check): on a store with ascending keys and a boundary at the minimum
key, for `keyBegin < keyEnd` the store after `assign(keyBegin, keyEnd, val)` contains a
boundary with key `keyEnd` if and only if `lookup(keyEnd)` before the call differs from
`val`; when present its value is that earlier `lookup(keyEnd)`. -/
theorem assign_right_edge [OrderBot K] [DecidableEq V] (im : interval_map K V)
    (keyBegin keyEnd : K) (val : V)
    (hs : KeysAscending im.m_map) (hmin : HasMinBoundary im.m_map)
    (hbe : keyBegin < keyEnd) :
    ∃ im', im.assign keyBegin keyEnd val = some im'
      ∧ ((∃ p ∈ im'.m_map, p.1 = keyEnd) ↔ im.lookup keyEnd ≠ some val)
      ∧ ∀ p ∈ im'.m_map, p.1 = keyEnd → some p.2 = im.lookup keyEnd := by
  obtain ⟨m⟩ := im
  obtain ⟨A, B, E, C, x, h⟩ := exists_split m keyBegin keyEnd hs hmin hbe
  have hlk : interval_map.lookup ⟨m⟩ keyEnd = some x := h.lookup_end hbe
  refine ⟨⟨A ++ optB A keyBegin val ++ optE keyEnd x val ++ C⟩,
    assign_split m A B E C keyBegin keyEnd x val hbe h, ?_, ?_⟩
  · rw [hlk]
    show (∃ p ∈ A ++ optB A keyBegin val ++ optE keyEnd x val ++ C, p.1 = keyEnd) ↔ _
    constructor
    · rintro ⟨p, hp, hpe⟩ hxv
      have hpE := result_key_end A C keyBegin keyEnd x val hbe h.hA h.hC p hp hpe
      exact (optE_key keyEnd x val p hpE).2 (Option.some.inj hxv)
    · intro hxv
      have hxv' : x ≠ val := fun hx => hxv (congrArg some hx)
      have hO : optE keyEnd x val = [(keyEnd, x)] := by simp [optE, hxv']
      exact ⟨(keyEnd, x), by simp [hO], rfl⟩
  · intro p hp hpe
    have hpE := result_key_end A C keyBegin keyEnd x val hbe h.hA h.hC p hp hpe
    rw [hlk, (optE_key keyEnd x val p hpE).1]

theorem assign_right_edge_witness :
    ∃ im', (⟨[(0, 'a'), (3, 'b'), (5, 'a')]⟩ : interval_map Nat Char).assign 1 4 'c' = some im'
      ∧ ((∃ p ∈ im'.m_map, p.1 = 4) ↔
          (⟨[(0, 'a'), (3, 'b'), (5, 'a')]⟩ : interval_map Nat Char).lookup 4 ≠ some 'c')
      ∧ ∀ p ∈ im'.m_map, p.1 = 4 →
          some p.2 = (⟨[(0, 'a'), (3, 'b'), (5, 'a')]⟩ : interval_map Nat Char).lookup 4 :=
  assign_right_edge ⟨[(0, 'a'), (3, 'b'), (5, 'a')]⟩ 1 4 'c' (by decide) (by decide) (by decide)

/-- C18 (structural frame): on a store with ascending keys and a boundary at the minimum
key, for `keyBegin < keyEnd` the boundaries with key `< keyBegin` and the boundaries
with key `> keyEnd` are exactly the same, in keys and values, before and after
`assign(keyBegin, keyEnd, val)`. -/
theorem assign_structural_frame [OrderBot K] [DecidableEq V] (im : interval_map K V)
    (keyBegin keyEnd : K) (val : V)
    (hs : KeysAscending im.m_map) (hmin : HasMinBoundary im.m_map)
    (hbe : keyBegin < keyEnd) :
    ∃ im', im.assign keyBegin keyEnd val = some im'
      ∧ im'.m_map.filter (fun p => decide (p.1 < keyBegin))
          = im.m_map.filter (fun p => decide (p.1 < keyBegin))
      ∧ im'.m_map.filter (fun p => decide (keyEnd < p.1))
          = im.m_map.filter (fun p => decide (keyEnd < p.1)) := by
  obtain ⟨m⟩ := im
  obtain ⟨A, B, E, C, x, h⟩ := exists_split m keyBegin keyEnd hs hmin hbe
  refine ⟨⟨A ++ optB A keyBegin val ++ optE keyEnd x val ++ C⟩,
    assign_split m A B E C keyBegin keyEnd x val hbe h, ?_, ?_⟩
  · show (A ++ optB A keyBegin val ++ optE keyEnd x val ++ C).filter _ = m.filter _
    rw [result_filter_low A C keyBegin keyEnd x val hbe h.hA h.hC, h.filter_low hbe]
  · show (A ++ optB A keyBegin val ++ optE keyEnd x val ++ C).filter _ = m.filter _
    rw [result_filter_high A C keyBegin keyEnd x val hbe h.hA h.hC, h.filter_high hbe]

theorem assign_structural_frame_witness :
    ∃ im', (⟨[(0, 'a'), (3, 'b'), (5, 'a'), (7, 'c')]⟩ : interval_map Nat Char).assign 2 5 'c'
        = some im'
      ∧ im'.m_map.filter (fun p => decide (p.1 < 2))
          = [((0 : Nat), 'a'), (3, 'b'), (5, 'a'), (7, 'c')].filter (fun p => decide (p.1 < 2))
      ∧ im'.m_map.filter (fun p => decide (5 < p.1))
          = [((0 : Nat), 'a'), (3, 'b'), (5, 'a'), (7, 'c')].filter (fun p => decide (5 < p.1)) :=
  assign_structural_frame ⟨[(0, 'a'), (3, 'b'), (5, 'a'), (7, 'c')]⟩ 2 5 'c'
    (by decide) (by decide) (by decide)

/-- C19 (interior is cleared): on a store with ascending keys and a boundary at the
minimum key, for `keyBegin < keyEnd` the store after `assign(keyBegin, keyEnd, val)`
contains no boundary whose key `k` satisfies `keyBegin < k < keyEnd`. -/
theorem assign_interior_cleared [OrderBot K] [DecidableEq V] (im : interval_map K V)
    (keyBegin keyEnd : K) (val : V)
    (hs : KeysAscending im.m_map) (hmin : HasMinBoundary im.m_map)
    (hbe : keyBegin < keyEnd) :
    ∃ im', im.assign keyBegin keyEnd val = some im'
      ∧ ∀ p ∈ im'.m_map, ¬ (keyBegin < p.1 ∧ p.1 < keyEnd) := by
  obtain ⟨m⟩ := im
  obtain ⟨A, B, E, C, x, h⟩ := exists_split m keyBegin keyEnd hs hmin hbe
  refine ⟨⟨A ++ optB A keyBegin val ++ optE keyEnd x val ++ C⟩,
    assign_split m A B E C keyBegin keyEnd x val hbe h, ?_⟩
  intro p hp hin
  rcases (mem_result A C keyBegin keyEnd x val p).mp hp with h1 | h1 | h1 | h1
  · exact lt_asymm (h.hA p h1) hin.1
  · rw [optB_key A keyBegin val p h1] at hin
    exact lt_irrefl _ hin.1
  · rw [(optE_key keyEnd x val p h1).1] at hin
    exact lt_irrefl _ hin.2
  · exact lt_asymm (h.hC p h1) hin.2

theorem assign_interior_cleared_witness :
    ∃ im', (⟨[(0, 'a'), (3, 'b'), (5, 'a'), (7, 'c')]⟩ : interval_map Nat Char).assign 2 6 'd'
        = some im'
      ∧ ∀ p ∈ im'.m_map, ¬ (2 < p.1 ∧ p.1 < 6) :=
  assign_interior_cleared ⟨[(0, 'a'), (3, 'b'), (5, 'a'), (7, 'c')]⟩ 2 6 'd'
    (by decide) (by decide) (by decide)


/-- C20 (re-assigning the value already in force changes nothing): on a canonical store
with ascending keys and a boundary at the minimum key, for `keyBegin < keyEnd`, if the
boundary with the greatest key `≤ keyBegin` has value `val` and no boundary has a key
`k` with `keyBegin < k < keyEnd`, then `assign(keyBegin, keyEnd, val)` returns a store
with exactly the same boundaries as before. -/
theorem assign_value_in_force_noop [OrderBot K] [DecidableEq V] (im : interval_map K V)
    (keyBegin keyEnd : K) (val : V)
    (hs : KeysAscending im.m_map) (hmin : HasMinBoundary im.m_map)
    (hcan : Canonical im.m_map) (hbe : keyBegin < keyEnd)
    (hval : ∃ p ∈ im.m_map, p.1 ≤ keyBegin
      ∧ (∀ q ∈ im.m_map, q.1 ≤ keyBegin → q.1 ≤ p.1) ∧ p.2 = val)
    (hint : ∀ q ∈ im.m_map, ¬ (keyBegin < q.1 ∧ q.1 < keyEnd)) :
    im.assign keyBegin keyEnd val = some im := by
  obtain ⟨m⟩ := im
  obtain ⟨A, B, E, C, x, h⟩ := exists_split m keyBegin keyEnd hs hmin hbe
  rw [assign_split m A B E C keyBegin keyEnd x val hbe h,
    h.assign_same_value hbe hs hcan val hval hint]

theorem assign_value_in_force_noop_witness :
    (⟨[(0, 'a'), (3, 'b'), (7, 'a')]⟩ : interval_map Nat Char).assign 4 6 'b'
      = some ⟨[(0, 'a'), (3, 'b'), (7, 'a')]⟩ :=
  assign_value_in_force_noop ⟨[(0, 'a'), (3, 'b'), (7, 'a')]⟩ 4 6 'b'
    (by decide) (by decide) (by decide) (by decide)
    ⟨(3, 'b'), by decide, by decide, by decide, rfl⟩ (by decide)


/-! ## Two calls on disjoint ranges -/

theorem assign_lookup [OrderBot K] [DecidableEq V] (im : interval_map K V) (b e : K) (v : V)
    (hs : KeysAscending im.m_map) (hmin : HasMinBoundary im.m_map) :
    ∃ im', im.assign b e v = some im' ∧ KeysAscending im'.m_map ∧ HasMinBoundary im'.m_map
      ∧ (Canonical im.m_map → Canonical im'.m_map)
      ∧ ∀ k, im'.lookup k = if b ≤ k ∧ k < e then some v else im.lookup k := by
  by_cases hbe : b < e
  · obtain ⟨im', h1, h2, h3, h4, h5, h6⟩ := assign_spec im b e v hs hmin hbe
    refine ⟨im', h1, h2, h3, h4, ?_⟩
    intro k
    by_cases hin : b ≤ k ∧ k < e
    · rw [if_pos hin]; exact h5 k hin.1 hin.2
    · rw [if_neg hin]
      apply h6 k
      by_cases hkb : k < b
      · exact Or.inl hkb
      · exact Or.inr (not_lt.mp (fun hke => hin ⟨not_lt.mp hkb, hke⟩))
  · refine ⟨im, assign_noop im b e v hbe, hs, hmin, id, ?_⟩
    intro k
    rw [if_neg]
    intro hin
    exact hbe (lt_of_le_of_lt hin.1 hin.2)

theorem store_eq_of_lookup_eq [OrderBot K] (m1 m2 : List (K × V))
    (hs1 : KeysAscending m1) (hs2 : KeysAscending m2)
    (hmin1 : HasMinBoundary m1) (hmin2 : HasMinBoundary m2)
    (hc1 : Canonical m1) (hc2 : Canonical m2)
    (hlk : ∀ k, interval_map.lookup ⟨m1⟩ k = interval_map.lookup ⟨m2⟩ k) : m1 = m2 := by
  obtain ⟨x1, t1, hm1⟩ := head_of_hasMin m1 hs1 hmin1
  obtain ⟨x2, t2, hm2⟩ := head_of_hasMin m2 hs2 hmin2
  subst hm1
  subst hm2
  exact canonical_unique_aux t1 t2 ⊥ x1 x2 hs1 hs2 hc1 hc2 (fun k _ => hlk k)

/-- C21 (disjoint assigns commute): on a canonical store with ascending keys and a
boundary at the minimum key, for two ranges `[a, b)` and `[c, d)` with `b ≤ c` and any
values `v`, `w`, the calls `assign(a, b, v)` then `assign(c, d, w)` return exactly the
same boundary store as `assign(c, d, w)` then `assign(a, b, v)`. -/
theorem disjoint_assigns_commute [OrderBot K] [DecidableEq V] (im : interval_map K V)
    (a b c d : K) (v w : V)
    (hs : KeysAscending im.m_map) (hmin : HasMinBoundary im.m_map)
    (hcan : Canonical im.m_map) (hbc : b ≤ c) :
    ∃ im1 im2 im', im.assign a b v = some im1 ∧ im1.assign c d w = some im'
      ∧ im.assign c d w = some im2 ∧ im2.assign a b v = some im' := by
  obtain ⟨im1, h1, hs1, hmin1, hc1, hl1⟩ := assign_lookup im a b v hs hmin
  obtain ⟨im12, h12, hs12, hmin12, hc12, hl12⟩ := assign_lookup im1 c d w hs1 hmin1
  obtain ⟨im2, h2, hs2, hmin2, hc2, hl2⟩ := assign_lookup im c d w hs hmin
  obtain ⟨im21, h21, hs21, hmin21, hc21, hl21⟩ := assign_lookup im2 a b v hs2 hmin2
  have hlk : ∀ k, interval_map.lookup ⟨im21.m_map⟩ k = interval_map.lookup ⟨im12.m_map⟩ k := by
    intro k
    show im21.lookup k = im12.lookup k
    rw [hl21 k, hl12 k, hl2 k, hl1 k]
    by_cases hab : a ≤ k ∧ k < b
    · have hcd : ¬ (c ≤ k ∧ k < d) :=
        fun hcd => absurd (lt_of_lt_of_le hab.2 (le_trans hbc hcd.1)) (lt_irrefl k)
      rw [if_pos hab, if_neg hcd, if_pos hab]
    · rw [if_neg hab, if_neg hab]
  have heq : im21.m_map = im12.m_map :=
    store_eq_of_lookup_eq im21.m_map im12.m_map hs21 hs12 hmin21 hmin12
      (hc21 (hc2 hcan)) (hc12 (hc1 hcan)) hlk
  have him : im21 = im12 := by
    cases im21
    cases im12
    exact congrArg interval_map.mk heq
  refine ⟨im1, im2, im12, h1, h12, h2, ?_⟩
  rw [h21, him]

theorem disjoint_assigns_commute_witness :
    ∃ im1 im2 im',
      (⟨[(0, 'a'), (3, 'b'), (5, 'a')]⟩ : interval_map Nat Char).assign 1 4 'c' = some im1
      ∧ im1.assign 4 6 'b' = some im'
      ∧ (⟨[(0, 'a'), (3, 'b'), (5, 'a')]⟩ : interval_map Nat Char).assign 4 6 'b' = some im2
      ∧ im2.assign 1 4 'c' = some im' :=
  disjoint_assigns_commute ⟨[(0, 'a'), (3, 'b'), (5, 'a')]⟩ 1 4 4 6 'c' 'b'
    (by decide) (by decide) (by decide) (by decide)

end IntervalMap
